import Mathlib

/-!
Verification of the docscalpel post-detection pipeline (merge → associate →
renumber → dedupe) against its natural-language specification.

The Python sources under `src/docscalpel/` are shallowly embedded here:
floating-point page coordinates become `ℚ`, text becomes `List Char`,
Python dictionaries become association lists, and the one external
collaborator (PDF text extraction) is made an explicit input.
-/

namespace DocScalpel

/-- `models.py`, `ElementType`: enumeration of supported element types. -/
inductive ElementType
  | figure
  | table
  | equation
deriving DecidableEq, Repr

/-- `models.py`, `ElementType.value`: the string value of each enum member. -/
def ElementType.value : ElementType → List Char
  | .figure => "figure".data
  | .table => "table".data
  | .equation => "equation".data

/-- `models.py`, `BoundingBox`: the rectangular region of an element on a
page.  Coordinates are embedded as rationals; the `__post_init__`
validation is captured separately by `BoundingBox.Valid`. -/
structure BoundingBox where
  x : ℚ
  y : ℚ
  width : ℚ
  height : ℚ
  page_number : ℕ
  padding : ℕ := 0
deriving DecidableEq, Repr

/-- `models.py`, `BoundingBox.__post_init__`: validation constraints. -/
def BoundingBox.Valid (b : BoundingBox) : Prop :=
  0 ≤ b.x ∧ 0 ≤ b.y ∧ 0 < b.width ∧ 0 < b.height ∧ 1 ≤ b.page_number

/-- `models.py`, `BoundingBox.x2`: right edge coordinate. -/
def BoundingBox.x2 (b : BoundingBox) : ℚ := b.x + b.width

/-- `models.py`, `BoundingBox.y2`: bottom edge coordinate. -/
def BoundingBox.y2 (b : BoundingBox) : ℚ := b.y + b.height

/-- `models.py`, `BoundingBox.area`: total area of the bounding box. -/
def BoundingBox.area (b : BoundingBox) : ℚ := b.width * b.height

/-- `models.py`, `Element`: a detected figure/table/equation.  The opaque
uuid token `element_id` is embedded as a natural number. -/
structure Element where
  element_id : ℕ
  element_type : ElementType
  bounding_box : BoundingBox
  page_number : ℕ
  sequence_number : ℕ
  confidence_score : ℚ
  output_filename : List Char
deriving DecidableEq, Repr

/-- `caption_parser.py`, `Caption`: a detected caption with its text,
bounding box, page, kind and optionally parsed number. -/
structure Caption where
  text : List Char
  bounding_box : BoundingBox
  page_number : ℕ
  element_type : ElementType
  parsed_number : Option ℕ
deriving DecidableEq, Repr

/-! ### Stable sorting

Python's `sorted`/`list.sort` are stable; `List.insertionSort` with a
reflexive total preorder is likewise stable, so it is the embedding of
every sort in the source. -/

/-- Sort key of `sorted(elements, key=lambda e: e.confidence_score, reverse=True)`
(`figure_merger.py:98`, `extractor.py:367`): descending confidence. -/
def confDescRel (a b : Element) : Prop := b.confidence_score ≤ a.confidence_score

instance : DecidableRel confDescRel :=
  fun a b => inferInstanceAs (Decidable (b.confidence_score ≤ a.confidence_score))

instance : IsTotal Element confDescRel := ⟨fun a b => le_total b.confidence_score a.confidence_score⟩

instance : IsTrans Element confDescRel := ⟨fun _ _ _ h1 h2 => le_trans h2 h1⟩

/-- Sort key of `key=lambda e: (e.page_number, e.bounding_box.y, e.bounding_box.x)`
(`extractor.py:475` and `extractor.py:566`): lexicographic page/y/x order. -/
def posRel (a b : Element) : Prop :=
  a.page_number < b.page_number ∨
    (a.page_number = b.page_number ∧
      (a.bounding_box.y < b.bounding_box.y ∨
        (a.bounding_box.y = b.bounding_box.y ∧ a.bounding_box.x ≤ b.bounding_box.x)))

instance : DecidableRel posRel := fun a b => by unfold posRel; infer_instance

instance : IsTotal Element posRel := by
  constructor
  intro a b
  rcases lt_trichotomy a.page_number b.page_number with h | h | h
  · exact Or.inl (Or.inl h)
  · rcases lt_trichotomy a.bounding_box.y b.bounding_box.y with h2 | h2 | h2
    · exact Or.inl (Or.inr ⟨h, Or.inl h2⟩)
    · rcases le_total a.bounding_box.x b.bounding_box.x with h3 | h3
      · exact Or.inl (Or.inr ⟨h, Or.inr ⟨h2, h3⟩⟩)
      · exact Or.inr (Or.inr ⟨h.symm, Or.inr ⟨h2.symm, h3⟩⟩)
    · exact Or.inr (Or.inr ⟨h.symm, Or.inl h2⟩)
  · exact Or.inr (Or.inl h)

instance : IsTrans Element posRel := by
  constructor
  intro a b c hab hbc
  rcases hab with h1 | ⟨e1, h1⟩
  · rcases hbc with h2 | ⟨e2, _⟩
    · exact Or.inl (h1.trans h2)
    · exact Or.inl (e2 ▸ h1)
  · rcases hbc with h2 | ⟨e2, h2⟩
    · exact Or.inl (e1 ▸ h2)
    · refine Or.inr ⟨e1.trans e2, ?_⟩
      rcases h1 with h1 | ⟨f1, h1⟩
      · rcases h2 with h2 | ⟨f2, _⟩
        · exact Or.inl (h1.trans h2)
        · exact Or.inl (f2 ▸ h1)
      · rcases h2 with h2 | ⟨f2, h2⟩
        · exact Or.inl (f1 ▸ h2)
        · exact Or.inr ⟨f1.trans f2, h1.trans h2⟩

/-- `sorted(elements, key=lambda e: e.confidence_score, reverse=True)`. -/
def sortByConfidenceDesc (l : List Element) : List Element := List.insertionSort confDescRel l

/-- `elements.sort(key=lambda e: (e.page_number, e.bounding_box.y, e.bounding_box.x))`. -/
def sortByPosition (l : List Element) : List Element := List.insertionSort posRel l

/-! ### Geometry kernel (`figure_merger.py`, `extractor.py`, `caption_parser.py`) -/

/-- `figure_merger.py`, `FigureMerger._calculate_iou`: intersection over
union of two bounding boxes. -/
def calculateIou (bbox1 bbox2 : BoundingBox) : ℚ :=
  let xLeft := max bbox1.x bbox2.x
  let yTop := max bbox1.y bbox2.y
  let xRight := min bbox1.x2 bbox2.x2
  let yBottom := min bbox1.y2 bbox2.y2
  if xRight < xLeft ∨ yBottom < yTop then 0
  else
    let intersectionArea := (xRight - xLeft) * (yBottom - yTop)
    let unionArea := bbox1.area + bbox2.area - intersectionArea
    if 0 < unionArea then intersectionArea / unionArea else 0

/-- `figure_merger.py`, `FigureMerger._calculate_min_distance`: minimum of
the horizontal and the vertical gap between two boxes. -/
def calculateMinDistance (bbox1 bbox2 : BoundingBox) : ℚ :=
  let hDistance : ℚ :=
    if bbox1.x2 < bbox2.x then bbox2.x - bbox1.x2
    else if bbox2.x2 < bbox1.x then bbox1.x - bbox2.x2
    else 0
  let vDistance : ℚ :=
    if bbox1.y2 < bbox2.y then bbox2.y - bbox1.y2
    else if bbox2.y2 < bbox1.y then bbox1.y - bbox2.y2
    else 0
  if hDistance = 0 ∧ vDistance = 0 then 0
  else if hDistance = 0 then vDistance
  else if vDistance = 0 then hDistance
  else min hDistance vDistance

/-- `caption_parser.py`, `CaptionParser._calculate_distance`: vertical
distance between two boxes (0 when they overlap vertically). -/
def calculateDistance (bbox1 bbox2 : BoundingBox) : ℚ :=
  if bbox1.y2 ≤ bbox2.y then bbox2.y - bbox1.y2
  else if bbox2.y2 ≤ bbox1.y then bbox1.y - bbox2.y2
  else 0

/-- `caption_parser.py`, `CaptionParser._is_caption_below`: the caption is
below the element iff the element ends above where the caption starts. -/
def isCaptionBelow (element_bbox caption_bbox : BoundingBox) : Prop :=
  element_bbox.y2 ≤ caption_bbox.y

instance (b1 b2 : BoundingBox) : Decidable (isCaptionBelow b1 b2) :=
  inferInstanceAs (Decidable (b1.y2 ≤ b2.y))

/-! ### Figure merger (`figure_merger.py`) -/

/-- `figure_merger.py`, `FigureMerger.__init__`: merger configuration. -/
structure FigureMerger where
  overlap_threshold : ℚ := 3/10
  proximity_threshold : ℚ := 20
  min_confidence : ℚ := 1/2
deriving DecidableEq, Repr

/-- `figure_merger.py`, `FigureMerger._should_merge`: merge on overlap
(`iou >= overlap_threshold`) or proximity (`distance <= proximity_threshold`). -/
def shouldMerge (m : FigureMerger) (elem1 elem2 : Element) : Bool :=
  decide (m.overlap_threshold ≤ calculateIou elem1.bounding_box elem2.bounding_box) ||
    decide (calculateMinDistance elem1.bounding_box elem2.bounding_box ≤ m.proximity_threshold)

/-- `figure_merger.py`, `FigureMerger._create_merged_element` on the
non-empty list `elem :: rest`: min-enclosing rectangle, max confidence,
other fields copied from the first element (`dataclasses.replace`). -/
def createMergedElementCore (elem : Element) (rest : List Element) : Element :=
  let minX := (rest.map (fun e => e.bounding_box.x)).foldl min elem.bounding_box.x
  let minY := (rest.map (fun e => e.bounding_box.y)).foldl min elem.bounding_box.y
  let maxX := (rest.map (fun e => e.bounding_box.x2)).foldl max elem.bounding_box.x2
  let maxY := (rest.map (fun e => e.bounding_box.y2)).foldl max elem.bounding_box.y2
  let mergedBbox : BoundingBox :=
    { x := minX, y := minY, width := maxX - minX, height := maxY - minY,
      page_number := elem.page_number, padding := elem.bounding_box.padding }
  let maxConfidence :=
    (rest.map (fun e => e.confidence_score)).foldl max elem.confidence_score
  { elem with bounding_box := mergedBbox, confidence_score := maxConfidence }

/-- `figure_merger.py`, `FigureMerger._create_merged_element`: the empty
list raises `ValueError`, embedded as `none`. -/
def createMergedElement (elements : List Element) : Option Element :=
  match elements with
  | [] => none
  | elem :: rest => some (createMergedElementCore elem rest)

/-- `figure_merger.py`, `FigureMerger._merge_group` main loop over the
confidence-sorted list: the first not-yet-consumed element absorbs every
later not-yet-consumed element that `_should_merge` accepts. -/
def mergeGroupGo (m : FigureMerger) : List Element → List Element
  | [] => []
  | elem1 :: rest =>
    let absorbed := rest.filter (fun elem2 => shouldMerge m elem1 elem2)
    let leftover := rest.filter (fun elem2 => ! shouldMerge m elem1 elem2)
    (if absorbed.isEmpty then elem1 else createMergedElementCore elem1 absorbed) ::
      mergeGroupGo m leftover
termination_by l => l.length
decreasing_by
  simp only [List.length_cons]
  exact Nat.lt_succ_of_le (List.length_filter_le _ _)

/-- `figure_merger.py`, `FigureMerger._merge_group`: groups of at most one
element pass through unchanged, larger groups are clustered after sorting
by descending confidence. -/
def mergeGroup (m : FigureMerger) (elements : List Element) : List Element :=
  if elements.length ≤ 1 then elements
  else mergeGroupGo m (sortByConfidenceDesc elements)

/-- Insertion-ordered key collection, the embedding of iterating a Python
dict built by appending to `d[key]` (`figure_merger.py:57`,
`extractor.py:466`): first occurrence order, no duplicates. -/
def insertNew {κ : Type} [DecidableEq κ] (ks : List κ) (k : κ) : List κ :=
  if k ∈ ks then ks else ks ++ [k]

/-- The keys of a Python grouping dict in insertion order. -/
def orderedKeys {α κ : Type} [DecidableEq κ] (key : α → κ) (l : List α) : List κ :=
  l.foldl (fun ks e => insertNew ks (key e)) []

/-- `figure_merger.py`, `FigureMerger.merge_elements`: group by
`(page_number, element_type)` and merge each group. -/
def mergeElements (m : FigureMerger) (elements : List Element) : List Element :=
  if elements.isEmpty then elements
  else
    (orderedKeys (fun e => (e.page_number, e.element_type)) elements).flatMap
      (fun k => mergeGroup m
        (elements.filter (fun e => decide ((e.page_number, e.element_type) = k))))

/-! ### Cross-kind overlap removal (`extractor.py`) -/

/-- `extractor.py`, `_elements_overlap`: same page and `iou >= threshold`. -/
def elementsOverlap (elem1 elem2 : Element) (threshold : ℚ) : Bool :=
  if elem1.page_number ≠ elem2.page_number then false
  else
    let bbox1 := elem1.bounding_box
    let bbox2 := elem2.bounding_box
    let xLeft := max bbox1.x bbox2.x
    let yTop := max bbox1.y bbox2.y
    let xRight := min bbox1.x2 bbox2.x2
    let yBottom := min bbox1.y2 bbox2.y2
    if xRight < xLeft ∨ yBottom < yTop then false
    else
      let intersectionArea := (xRight - xLeft) * (yBottom - yTop)
      let unionArea := bbox1.area + bbox2.area - intersectionArea
      let iou := if 0 < unionArea then intersectionArea / unionArea else 0
      decide (threshold ≤ iou)

/-- `extractor.py`, `_handle_overlaps` main loop over the
confidence-sorted list.  A warning is embedded as the pair
(removed element, kept element named in the message). -/
def handleOverlapsGo (threshold : ℚ) (kept : List Element)
    (warnings : List (Element × Element)) :
    List Element → List Element × List (Element × Element)
  | [] => (kept, warnings)
  | element :: rest =>
    match kept.find? (fun k => elementsOverlap element k threshold) with
    | some k => handleOverlapsGo threshold kept (warnings ++ [(element, k)]) rest
    | none => handleOverlapsGo threshold (kept ++ [element]) warnings rest

/-- `extractor.py`, `_handle_overlaps`: remove overlapping elements,
keeping the one with highest confidence. -/
def handleOverlaps (elements : List Element) (overlap_threshold : ℚ := 1/2) :
    List Element × List (Element × Element) :=
  if elements.length ≤ 1 then (elements, [])
  else handleOverlapsGo overlap_threshold [] [] (sortByConfidenceDesc elements)

/-! ### Caption parsing (`caption_parser.py`)

The regular expressions of `CaptionParser` are embedded directly.  Each
pattern is `(?:alt1|alt2|...)\s*(\d+)` or `(?:alt1|alt2|...)\s*([A-Z])`,
compiled with `re.IGNORECASE`, so a match at a position tries the
alternatives in declared order (case-insensitively), then greedy `\s*`
(whitespace and digits/letters are disjoint, so greediness is exact),
then the capture.  `re.search`/`re.finditer` scan for the leftmost
match position. -/

/-- Python `\s` on the ASCII plane: `[ \t\n\r\v\f]`. -/
def isPySpace (c : Char) : Bool :=
  c == ' ' || c == '\t' || c == '\n' || c == '\r' || c == '\x0b' || c == '\x0c'

/-- Case-insensitive prefix test (effect of `re.IGNORECASE` on the label
alternatives). -/
def ciPrefixOf : List Char → List Char → Bool
  | [], _ => true
  | _ :: _, [] => false
  | p :: ps, c :: cs => (p.toLower == c.toLower) && ciPrefixOf ps cs

/-- `int(number_str)` on a capture: succeeds exactly on non-empty digit
strings (letter captures raise `ValueError`). -/
def digitsToNat (cs : List Char) : ℕ := cs.foldl (fun a c => 10 * a + (c.toNat - 48)) 0

/-- `int(...)` wrapped in `try`: `none` models `ValueError`. -/
def intOfCapture (cs : List Char) : Option ℕ :=
  if cs ≠ [] ∧ cs.all Char.isDigit then some (digitsToNat cs) else none

/-- The case-collapsed label alternatives of `FIGURE_PATTERNS`,
`TABLE_PATTERNS` and `EQUATION_PATTERNS`, in declared order
(`Fig\.?` contributes `fig.` then `fig`). -/
def kindAlts : ElementType → List (List Char)
  | .figure => ["figure".data, "fig.".data, "fig".data]
  | .table => ["table".data, "tbl.".data, "tbl".data]
  | .equation => ["equation".data, "eq.".data, "eq".data]

/-- Whether the kind has a second, letter-capturing pattern
(`EQUATION_PATTERNS` has none). -/
def hasLetterPattern : ElementType → Bool
  | .figure => true
  | .table => true
  | .equation => false

/-- One alternative of the digit pattern matched at the current position:
label, `\s*`, then `(\d+)`; returns the capture and the matched length. -/
def matchDigitAtAlt (alt : List Char) (cs : List Char) : Option (List Char × ℕ) :=
  if ciPrefixOf alt cs then
    let rest := cs.drop alt.length
    let sp := rest.takeWhile isPySpace
    let ds := (rest.drop sp.length).takeWhile Char.isDigit
    if ds.isEmpty then none else some (ds, alt.length + sp.length + ds.length)
  else none

/-- The digit pattern matched at the current position (alternatives tried
in order, as the regex engine backtracks through the group). -/
def matchDigitAt (alts : List (List Char)) (cs : List Char) : Option (List Char × ℕ) :=
  match alts with
  | [] => none
  | a :: more =>
    match matchDigitAtAlt a cs with
    | some r => some r
    | none => matchDigitAt more cs

/-- One alternative of the letter pattern at the current position:
label, `\s*`, then `([A-Z])` under `IGNORECASE` (a single ASCII letter). -/
def matchLetterAtAlt (alt : List Char) (cs : List Char) : Option (Char × ℕ) :=
  if ciPrefixOf alt cs then
    let rest := cs.drop alt.length
    let sp := rest.takeWhile isPySpace
    match rest.drop sp.length with
    | c :: _ => if c.isAlpha then some (c, alt.length + sp.length + 1) else none
    | [] => none
  else none

/-- The letter pattern matched at the current position. -/
def matchLetterAt (alts : List (List Char)) (cs : List Char) : Option (Char × ℕ) :=
  match alts with
  | [] => none
  | a :: more =>
    match matchLetterAtAlt a cs with
    | some r => some r
    | none => matchLetterAt more cs

/-- `re.search`: the leftmost position where the pattern matches. -/
def searchFirst {γ : Type} (f : List Char → Option γ) : List Char → Option γ
  | [] => f []
  | cs@(_ :: rest) =>
    match f cs with
    | some r => some r
    | none => searchFirst f rest

/-- `re.finditer` scanning loop, with fuel for structural recursion.
Every step shortens the text by at least one character, so fuel equal to
the text length is always sufficient. -/
def findAllGo {γ : Type} (f : List Char → Option (γ × ℕ)) : ℕ → List Char → List γ
  | 0, _ => []
  | _ + 1, [] => []
  | fuel + 1, c :: rest =>
    match f (c :: rest) with
    | some (g, consumed) => g :: findAllGo f fuel ((c :: rest).drop (max consumed 1))
    | none => findAllGo f fuel rest

/-- `re.finditer`: all non-overlapping matches, scanning left to right and
resuming after each match. -/
def findAllMatches {γ : Type} (f : List Char → Option (γ × ℕ)) (cs : List Char) :
    List γ :=
  findAllGo f cs.length cs

/-- `caption_parser.py`, `CaptionParser._parse_number`: try the kind's
patterns in declared order; the first match wins; digit captures convert
with `int`, letter captures via `ord(number_str.upper()) - ord('A') + 1`. -/
def parseNumber (text : List Char) (element_type : ElementType) : Option ℕ :=
  match searchFirst (matchDigitAt (kindAlts element_type)) text with
  | some (ds, _) => some (digitsToNat ds)
  | none =>
    if hasLetterPattern element_type then
      match searchFirst (matchLetterAt (kindAlts element_type)) text with
      | some (c, _) => some (c.toUpper.toNat - 'A'.toNat + 1)
      | none => none
    else none

/-- The numbers collected from all kind-pattern matches over the full page
text (`caption_parser.py:134-142`): `finditer` over each pattern in order,
keeping the captures `int` accepts (letter captures are skipped). -/
def foundNumbers (element_type : ElementType) (full_page_text : List Char) : List ℕ :=
  (findAllMatches (matchDigitAt (kindAlts element_type)) full_page_text).filterMap
      intOfCapture ++
    (if hasLetterPattern element_type then
      (findAllMatches (matchLetterAt (kindAlts element_type)) full_page_text).filterMap
        (fun c => intOfCapture [c])
    else [])

/-! ### `CaptionParser.extract_captions_from_page`

PDF text extraction is an external collaborator, so the text PyMuPDF
returns for each caption box (and for the 50-unit-expanded box, and the
full page) is an explicit input here. -/

/-- One entry of `caption_bboxes` together with the stripped text the
external text-extraction collaborator returns for the box and for the
50-unit-expanded box. -/
structure CaptionBoxInput where
  bbox : BoundingBox
  element_type : ElementType
  text : List Char
  expandedText : List Char
deriving DecidableEq, Repr

/-- `caption_parser.py:86-123`: per-box extraction.  Empty text skips the
box; a figure box whose text parses to no number is retried on the
expanded text, and on success the caption keeps the expanded text. -/
def perBoxCaption (page_number : ℕ) (inp : CaptionBoxInput) : Option Caption :=
  if inp.text.isEmpty then none
  else
    match parseNumber inp.text inp.element_type, inp.element_type with
    | none, ElementType.figure =>
      match parseNumber inp.expandedText ElementType.figure with
      | some n =>
        some ⟨inp.expandedText, inp.bbox, page_number, inp.element_type, some n⟩
      | none => some ⟨inp.text, inp.bbox, page_number, inp.element_type, none⟩
    | p, _ => some ⟨inp.text, inp.bbox, page_number, inp.element_type, p⟩

/-- `caption_parser.py:144-154`: walk the captions in order; each figure
caption still lacking a number takes the first found number not yet used,
and claims it. -/
def assignFallbackGo (found : List ℕ) : List ℕ → List Caption → List Caption
  | _, [] => []
  | used, c :: rest =>
    if c.element_type = ElementType.figure ∧ c.parsed_number = none then
      match found.find? (fun n => decide (n ∉ used)) with
      | some n =>
        { c with parsed_number := some n } :: assignFallbackGo found (n :: used) rest
      | none => c :: assignFallbackGo found used rest
    else c :: assignFallbackGo found used rest

/-- `caption_parser.py`, `CaptionParser.extract_captions_from_page`:
per-box parsing, then the full-page fallback for figure captions without
numbers (`used_numbers` starts as every parsed number on the page). -/
def extractCaptionsFromPage (page_number : ℕ) (inputs : List CaptionBoxInput)
    (full_page_text : List Char) : List Caption :=
  let captions := inputs.filterMap (perBoxCaption page_number)
  let withoutNumbers := captions.filter
    (fun c => decide (c.parsed_number = none ∧ c.element_type = ElementType.figure))
  if ¬withoutNumbers.isEmpty ∧ ¬inputs.isEmpty then
    assignFallbackGo (foundNumbers ElementType.figure full_page_text)
      (captions.filterMap (fun c => c.parsed_number)) captions
  else captions

/-- The lowest element of `cands` not in `used`, if any. -/
def lowestUnclaimed (cands used : List ℕ) : Option ℕ :=
  match cands.filter (fun n => decide (n ∉ used)) with
  | [] => none
  | a :: t => some (t.foldl min a)

/-- The page-wide fallback exactly as the claim words it: every caption of
**any** kind still lacking a number is assigned the **lowest** number found
by its kind's patterns in the page text that no other caption has claimed,
first-come-first-served in caption order. -/
def claimFallbackGo (full_page_text : List Char) : List ℕ → List Caption → List Caption
  | _, [] => []
  | used, c :: rest =>
    if c.parsed_number = none then
      match lowestUnclaimed (foundNumbers c.element_type full_page_text) used with
      | some n =>
        { c with parsed_number := some n } :: claimFallbackGo full_page_text (n :: used) rest
      | none => c :: claimFallbackGo full_page_text used rest
    else c :: claimFallbackGo full_page_text used rest

/-- `extract_captions_from_page` as the claim states it (any kind, lowest
unclaimed number). -/
def claimExtractCaptions (page_number : ℕ) (inputs : List CaptionBoxInput)
    (full_page_text : List Char) : List Caption :=
  let captions := inputs.filterMap (perBoxCaption page_number)
  claimFallbackGo full_page_text (captions.filterMap (fun c => c.parsed_number)) captions

/-- The amended fallback: only **figure** captions participate, and each
takes the **first** unclaimed number in pattern-then-text discovery order. -/
def amendedExtractCaptions (page_number : ℕ) (inputs : List CaptionBoxInput)
    (full_page_text : List Char) : List Caption :=
  let captions := inputs.filterMap (perBoxCaption page_number)
  assignFallbackGo (foundNumbers ElementType.figure full_page_text)
    (captions.filterMap (fun c => c.parsed_number)) captions

/-! ### Caption association, step 2 (`caption_parser.py:258-301`) -/

/-- `caption_parser.py:216`: a synthetic caption has a 1×1 bounding box;
real captions are all others. -/
def isRealCaption (c : Caption) : Bool :=
  !(decide (c.bounding_box.width = 1) && decide (c.bounding_box.height = 1))

/-- `caption_parser.py:283-290`: the candidate's score — the raw distance
when the caption sits below the element, a 500.0 penalty otherwise. -/
def captionScore (element : Element) (caption : Caption) : ℚ :=
  let distance := calculateDistance element.bounding_box caption.bounding_box
  if isCaptionBelow element.bounding_box caption.bounding_box then distance
  else distance + 500

/-- `caption_parser.py:266-281`: a caption survives the filters for the
element — real, same kind, same page, has a parsed number, and within
`max_distance`. -/
def isAssocCandidate (max_distance : ℚ) (element : Element) (caption : Caption) : Prop :=
  isRealCaption caption = true ∧
    caption.element_type = element.element_type ∧
    caption.page_number = element.page_number ∧
    caption.parsed_number ≠ none ∧
    calculateDistance element.bounding_box caption.bounding_box < max_distance

instance (maxd : ℚ) (e : Element) (c : Caption) : Decidable (isAssocCandidate maxd e c) := by
  unfold isAssocCandidate; infer_instance

/-- `caption_parser.py:267-281`: the filter conditions checked inside the
candidate loop (kind, page, parsed number, `distance >= max_distance`);
realness is established before the loop by iterating `real_captions`. -/
def assocCandB (element : Element) (max_distance : ℚ) (caption : Caption) : Bool :=
  decide (caption.element_type = element.element_type ∧
      caption.page_number = element.page_number) &&
    !(decide (caption.parsed_number = none)) &&
    decide (calculateDistance element.bounding_box caption.bounding_box < max_distance)

/-- One iteration of the candidate loop: keep the strictly better score. -/
def assocStep (element : Element) (max_distance : ℚ) (best : Option (ℚ × Caption))
    (caption : Caption) : Option (ℚ × Caption) :=
  if assocCandB element max_distance caption then
    let score := captionScore element caption
    match best with
    | none => some (score, caption)
    | some (bestScore, bestCaption) =>
      if score < bestScore then some (score, caption) else some (bestScore, bestCaption)
  else best

/-- `caption_parser.py:259-301`, the distance-based matching for one
remaining element: iterate the real captions, keep the strictly best
(lowest) score; `best_score` starts at `float('inf')`. -/
def bestRealCaption (element : Element) (captions : List Caption) (max_distance : ℚ) :
    Option Caption :=
  ((captions.filter isRealCaption).foldl (assocStep element max_distance) none).map
    Prod.snd

/-! ### Shared-caption merge (Pass B)

`FigureMerger.merge_by_shared_captions` is invoked at `extractor.py:234`
but its definition is not part of the provided sources; only its callers
and comments are.  It is modelled below from the spec. -/

/-- Lookup in the association map (a Python dict `element_id → Caption`). -/
def lookupAssoc (assoc : List (ℕ × Caption)) (element_id : ℕ) : Option Caption :=
  (assoc.find? (fun p => p.1 == element_id)).map Prod.snd

/-- The grouping key of Pass B: same page, same kind, identical associated
caption (structural equality, Python dataclass `__eq__`). -/
def assocKey (assoc : List (ℕ × Caption)) (e : Element) :
    ℕ × ElementType × Option Caption :=
  (e.page_number, e.element_type, lookupAssoc assoc e.element_id)

/-- Modelled from the spec (part of `merge_by_shared_captions`): the merge
of one association group — the group members in element order, merged with
the source's `_create_merged_element` when there are two or more, paired
with the shared caption. -/
def sharedGroupMerge (elements : List Element) (assoc : List (ℕ × Caption))
    (k : ℕ × ElementType × Option Caption) : Option (Element × Caption) :=
  match (elements.filter (fun e => (lookupAssoc assoc e.element_id).isSome)).filter
      (fun e => decide (assocKey assoc e = k)) with
  | [] => none
  | h :: tl =>
    match lookupAssoc assoc h.element_id with
    | some cap =>
      some ((if tl.isEmpty then h else createMergedElementCore h tl), cap)
    | none => none

/-- Modelled from the spec: `FigureMerger.merge_by_shared_captions`
(missing from the sources; spec §4.3 Pass B).  "Detect when two or more
elements of the same kind on the same page were bound to the *identical*
caption (by equality of the associated caption object) ... union their
bounding boxes into one element (min-enclosing rectangle, max confidence),
and collapse the association so the shared caption maps to the single
merged element.  Any element left without an association is excluded from
this pass."  The union/confidence step reuses the source's
`_create_merged_element`. -/
def mergeBySharedCaptions (elements : List Element) (assoc : List (ℕ × Caption)) :
    List Element × List (ℕ × Caption) :=
  let associated := elements.filter (fun e => (lookupAssoc assoc e.element_id).isSome)
  let unassociated := elements.filter (fun e => !(lookupAssoc assoc e.element_id).isSome)
  let keys := orderedKeys (assocKey assoc) associated
  let mergedPairs := keys.filterMap (sharedGroupMerge elements assoc)
  (mergedPairs.map Prod.fst ++ unassociated,
    mergedPairs.map (fun p => (p.1.element_id, p.2)))

/-! ### Naming patterns and sequence assignment (`extractor.py:444-553`)

A naming pattern is a format string containing `{type}` and `{counter}`
placeholders; it is embedded as a token list, `{counter}` rendering as the
decimal numeral. -/

/-- One piece of a naming pattern: literal text, `{type}`, or `{counter}`. -/
inductive PatToken
  | lit (s : List Char)
  | typePlaceholder
  | counterPlaceholder
deriving DecidableEq, Repr

/-- `'0'`..`'9'` for a digit value (clamping above 9, never reached). -/
def digitOf (d : ℕ) : Char :=
  match d with
  | 0 => '0' | 1 => '1' | 2 => '2' | 3 => '3' | 4 => '4'
  | 5 => '5' | 6 => '6' | 7 => '7' | 8 => '8' | _ => '9'

/-- Decimal rendering, accumulator form with fuel (any fuel above the
value works; `decRepr` passes `n + 1`). -/
def decReprGo : ℕ → ℕ → List Char → List Char
  | 0, _, acc => acc
  | fuel + 1, n, acc =>
    if n < 10 then digitOf n :: acc
    else decReprGo fuel (n / 10) (digitOf (n % 10) :: acc)

/-- The decimal numeral of `n` (the rendering of `{counter}`). -/
def decRepr (n : ℕ) : List Char := decReprGo (n + 1) n []

/-- `str.format`: substitute the kind's value string and the counter's
decimal numeral into the pattern. -/
def renderToken (t : ElementType) (c : ℕ) : PatToken → List Char
  | .lit s => s
  | .typePlaceholder => t.value
  | .counterPlaceholder => decRepr c

/-- Render a whole naming pattern for a kind and a counter. -/
def renderPattern (pat : List PatToken) (t : ElementType) (c : ℕ) : List Char :=
  pat.flatMap (renderToken t c)

/-- `models.py`, `create_element`: builds the element; `uuid4()` is
external nondeterminism, embedded as the fixed token `0` (no claim reads
the fresh id). -/
def createElementEmb (element_type : ElementType) (bounding_box : BoundingBox)
    (page_number sequence_number : ℕ) (confidence_score : ℚ)
    (output_filename : List Char) : Element :=
  ⟨0, element_type, bounding_box, page_number, sequence_number, confidence_score,
    output_filename⟩

/-- Python dict assignment `d[k] = v`: replace in place or append. -/
def insertReplace (d : List (ℕ × Element)) (k : ℕ) (v : Element) : List (ℕ × Element) :=
  match d with
  | [] => [(k, v)]
  | (k', v') :: rest =>
    if k' = k then (k, v) :: rest else (k', v') :: insertReplace rest k v

/-- One step of `extractor.py:483-495`: an element with an associated,
numbered caption goes into the dict (overwriting), all others join the
no-caption-number list. -/
def dictStep (assoc : List (ℕ × Caption)) (acc : List (ℕ × Element) × List Element)
    (e : Element) : List (ℕ × Element) × List Element :=
  match lookupAssoc assoc e.element_id with
  | some cap =>
    match cap.parsed_number with
    | some n => (insertReplace acc.1 n e, acc.2)
    | none => (acc.1, acc.2 ++ [e])
  | none => (acc.1, acc.2 ++ [e])

/-- `extractor.py:479-495`: split the position-sorted elements of one kind
into the dict `parsed caption number → element` (later elements overwrite)
and the list of elements without caption numbers. -/
def buildCaptionDict (assoc : List (ℕ × Caption)) (sortedEls : List Element) :
    List (ℕ × Element) × List Element :=
  sortedEls.foldl (dictStep assoc) ([], [])

/-- Whether the element's associated caption carries the parsed number
`n`. -/
def hasCapNum (assoc : List (ℕ × Caption)) (n : ℕ) (e : Element) : Bool :=
  match lookupAssoc assoc e.element_id with
  | some cap => decide (cap.parsed_number = some n)
  | none => false

/-- Lookup in the number-to-element dict. -/
def dictLookup (d : List (ℕ × Element)) (n : ℕ) : Option Element :=
  (d.find? (fun p => p.1 == n)).map Prod.snd

/-- `enumerate(l, start)` / a counter incremented per element. -/
def enumFrom {α : Type} (start : ℕ) : List α → List (ℕ × α)
  | [] => []
  | a :: rest => (start, a) :: enumFrom (start + 1) rest

/-- Sort key of `sorted(elements_with_caption_numbers.items())`: ascending
dict key (keys are distinct, so the tuple order is the key order). -/
def keyRel (p q : ℕ × Element) : Prop := p.1 ≤ q.1

instance : DecidableRel keyRel := fun p q => inferInstanceAs (Decidable (p.1 ≤ q.1))

instance : IsTotal (ℕ × Element) keyRel := ⟨fun p q => Nat.le_total p.1 q.1⟩

instance : IsTrans (ℕ × Element) keyRel := ⟨fun _ _ _ h1 h2 => le_trans h1 h2⟩

/-- `extractor.py:473-551`: assign sequence numbers and filenames within
one kind `t` (the loop body over `by_type.items()`). -/
def assignForType (pat : List PatToken) (assoc : List (ℕ × Caption)) (t : ElementType)
    (typeElements : List Element) : List Element :=
  let sortedEls := sortByPosition typeElements
  let dictAndRest := buildCaptionDict assoc sortedEls
  let dict := dictAndRest.1
  let withoutNums := dictAndRest.2
  if dict.isEmpty then
    (enumFrom 1 sortedEls).map (fun p =>
      createElementEmb p.2.element_type p.2.bounding_box p.2.page_number p.1
        p.2.confidence_score (renderPattern pat t p.1))
  else
    let items := List.insertionSort keyRel dict
    let fromCaptions := items.map (fun p =>
      createElementEmb p.2.element_type p.2.bounding_box p.2.page_number p.1
        p.2.confidence_score (renderPattern pat t p.1))
    let nextAvailable := (dict.map Prod.fst).foldl max 0 + 1
    let fromRest := (enumFrom nextAvailable withoutNums).map (fun p =>
      createElementEmb p.2.element_type p.2.bounding_box p.2.page_number p.1
        p.2.confidence_score (renderPattern pat t p.1))
    fromCaptions ++ fromRest

/-- `extractor.py`, `_assign_sequence_numbers_and_filenames`: group by
kind (insertion order) and process each kind. -/
def assignSequenceNumbersAndFilenames (elements : List Element) (pat : List PatToken)
    (assoc : List (ℕ × Caption)) : List Element :=
  (orderedKeys (fun e => e.element_type) elements).flatMap
    (fun t => assignForType pat assoc t
      (elements.filter (fun e => decide (e.element_type = t))))

/-- `extractor.py`, `_sort_elements`: final `(page_number, y, x)` order. -/
def sortElements (elements : List Element) : List Element := sortByPosition elements

/-! ### Helper lemmas: folded minima and maxima -/

section FoldMinMax

variable {α : Type} [LinearOrder α]

theorem foldl_max_init_le (l : List α) (a : α) : a ≤ l.foldl max a := by
  induction l generalizing a with
  | nil => exact le_refl a
  | cons b rest ih => exact le_trans (le_max_left a b) (ih (max a b))

theorem foldl_max_mem_le {b : α} (l : List α) (a : α) (hb : b ∈ l) : b ≤ l.foldl max a := by
  induction l generalizing a with
  | nil => cases hb
  | cons c rest ih =>
    rcases List.mem_cons.mp hb with rfl | hb'
    · exact le_trans (le_max_right a b) (foldl_max_init_le rest (max a b))
    · exact ih (max a c) hb'

theorem foldl_max_attained (l : List α) (a : α) :
    l.foldl max a = a ∨ l.foldl max a ∈ l := by
  induction l generalizing a with
  | nil => exact Or.inl rfl
  | cons b rest ih =>
    rcases ih (max a b) with h | h
    · rcases max_choice a b with hm | hm
      · exact Or.inl (by rw [List.foldl_cons, h, hm])
      · exact Or.inr (by rw [List.foldl_cons, h, hm]; exact List.mem_cons_self b rest)
    · exact Or.inr (List.mem_cons_of_mem b h)

theorem foldl_min_le_init (l : List α) (a : α) : l.foldl min a ≤ a := by
  induction l generalizing a with
  | nil => exact le_refl a
  | cons b rest ih => exact le_trans (ih (min a b)) (min_le_left a b)

theorem foldl_min_le_mem {b : α} (l : List α) (a : α) (hb : b ∈ l) : l.foldl min a ≤ b := by
  induction l generalizing a with
  | nil => cases hb
  | cons c rest ih =>
    rcases List.mem_cons.mp hb with rfl | hb'
    · exact le_trans (foldl_min_le_init rest (min a b)) (min_le_right a b)
    · exact ih (min a c) hb'

theorem foldl_min_attained (l : List α) (a : α) :
    l.foldl min a = a ∨ l.foldl min a ∈ l := by
  induction l generalizing a with
  | nil => exact Or.inl rfl
  | cons b rest ih =>
    rcases ih (min a b) with h | h
    · rcases min_choice a b with hm | hm
      · exact Or.inl (by rw [List.foldl_cons, h, hm])
      · exact Or.inr (by rw [List.foldl_cons, h, hm]; exact List.mem_cons_self b rest)
    · exact Or.inr (List.mem_cons_of_mem b h)

end FoldMinMax

/-- Bounds of the merged element: its box contains every member's box and
its confidence dominates every member's. -/
theorem createMergedElementCore_bounds (elem : Element) (rest : List Element) :
    ∀ e ∈ elem :: rest,
      (createMergedElementCore elem rest).bounding_box.x ≤ e.bounding_box.x ∧
      (createMergedElementCore elem rest).bounding_box.y ≤ e.bounding_box.y ∧
      e.bounding_box.x2 ≤ (createMergedElementCore elem rest).bounding_box.x2 ∧
      e.bounding_box.y2 ≤ (createMergedElementCore elem rest).bounding_box.y2 ∧
      e.confidence_score ≤ (createMergedElementCore elem rest).confidence_score := by
  intro e he
  have hbx2 : (createMergedElementCore elem rest).bounding_box.x2 =
      (rest.map (fun e => e.bounding_box.x2)).foldl max elem.bounding_box.x2 := by
    simp only [createMergedElementCore, BoundingBox.x2]
    ring
  have hby2 : (createMergedElementCore elem rest).bounding_box.y2 =
      (rest.map (fun e => e.bounding_box.y2)).foldl max elem.bounding_box.y2 := by
    simp only [createMergedElementCore, BoundingBox.y2]
    ring
  rcases List.mem_cons.mp he with rfl | he'
  · refine ⟨foldl_min_le_init _ _, foldl_min_le_init _ _, ?_, ?_, foldl_max_init_le _ _⟩
    · rw [hbx2]; exact foldl_max_init_le _ _
    · rw [hby2]; exact foldl_max_init_le _ _
  · refine ⟨foldl_min_le_mem _ _ (List.mem_map_of_mem _ he'),
      foldl_min_le_mem _ _ (List.mem_map_of_mem _ he'), ?_, ?_,
      foldl_max_mem_le _ _ (List.mem_map_of_mem _ he')⟩
    · rw [hbx2]; exact foldl_max_mem_le _ _ (List.mem_map_of_mem _ he')
    · rw [hby2]; exact foldl_max_mem_le _ _ (List.mem_map_of_mem _ he')

/-- Each bound of the merged element is attained by some member. -/
theorem createMergedElementCore_attained (elem : Element) (rest : List Element) :
    (∃ e ∈ elem :: rest,
        (createMergedElementCore elem rest).bounding_box.x = e.bounding_box.x) ∧
    (∃ e ∈ elem :: rest,
        (createMergedElementCore elem rest).bounding_box.y = e.bounding_box.y) ∧
    (∃ e ∈ elem :: rest,
        (createMergedElementCore elem rest).bounding_box.x2 = e.bounding_box.x2) ∧
    (∃ e ∈ elem :: rest,
        (createMergedElementCore elem rest).bounding_box.y2 = e.bounding_box.y2) ∧
    (∃ e ∈ elem :: rest,
        (createMergedElementCore elem rest).confidence_score = e.confidence_score) := by
  have hbx2 : (createMergedElementCore elem rest).bounding_box.x2 =
      (rest.map (fun e => e.bounding_box.x2)).foldl max elem.bounding_box.x2 := by
    simp only [createMergedElementCore, BoundingBox.x2]; ring
  have hby2 : (createMergedElementCore elem rest).bounding_box.y2 =
      (rest.map (fun e => e.bounding_box.y2)).foldl max elem.bounding_box.y2 := by
    simp only [createMergedElementCore, BoundingBox.y2]; ring
  refine ⟨?_, ?_, ?_, ?_, ?_⟩
  · rcases foldl_min_attained (rest.map (fun e => e.bounding_box.x)) elem.bounding_box.x
      with h | h
    · exact ⟨elem, List.mem_cons_self _ _, h⟩
    · rcases List.mem_map.mp h with ⟨e, he, hx⟩
      exact ⟨e, List.mem_cons_of_mem _ he, hx.symm ▸ rfl⟩
  · rcases foldl_min_attained (rest.map (fun e => e.bounding_box.y)) elem.bounding_box.y
      with h | h
    · exact ⟨elem, List.mem_cons_self _ _, h⟩
    · rcases List.mem_map.mp h with ⟨e, he, hx⟩
      exact ⟨e, List.mem_cons_of_mem _ he, hx.symm ▸ rfl⟩
  · rcases foldl_max_attained (rest.map (fun e => e.bounding_box.x2)) elem.bounding_box.x2
      with h | h
    · exact ⟨elem, List.mem_cons_self _ _, hbx2.trans h⟩
    · rcases List.mem_map.mp h with ⟨e, he, hx⟩
      exact ⟨e, List.mem_cons_of_mem _ he, hbx2.trans (hx.symm ▸ rfl)⟩
  · rcases foldl_max_attained (rest.map (fun e => e.bounding_box.y2)) elem.bounding_box.y2
      with h | h
    · exact ⟨elem, List.mem_cons_self _ _, hby2.trans h⟩
    · rcases List.mem_map.mp h with ⟨e, he, hx⟩
      exact ⟨e, List.mem_cons_of_mem _ he, hby2.trans (hx.symm ▸ rfl)⟩
  · rcases foldl_max_attained (rest.map (fun e => e.confidence_score)) elem.confidence_score
      with h | h
    · exact ⟨elem, List.mem_cons_self _ _, h⟩
    · rcases List.mem_map.mp h with ⟨e, he, hx⟩
      exact ⟨e, List.mem_cons_of_mem _ he, hx.symm ▸ rfl⟩

/-- C7: for every non-empty group handed to `_create_merged_element`, the
merged bounding box is the minimum enclosing rectangle of the members'
boxes (min x, min y, extending to max x2 and max y2) and the merged
confidence equals the maximum member confidence. -/
theorem claim_C7 (l : List Element) (m : Element) (h : createMergedElement l = some m) :
    (∀ e ∈ l,
      m.bounding_box.x ≤ e.bounding_box.x ∧
      m.bounding_box.y ≤ e.bounding_box.y ∧
      e.bounding_box.x2 ≤ m.bounding_box.x2 ∧
      e.bounding_box.y2 ≤ m.bounding_box.y2 ∧
      e.confidence_score ≤ m.confidence_score) ∧
    (∃ e ∈ l, m.bounding_box.x = e.bounding_box.x) ∧
    (∃ e ∈ l, m.bounding_box.y = e.bounding_box.y) ∧
    (∃ e ∈ l, m.bounding_box.x2 = e.bounding_box.x2) ∧
    (∃ e ∈ l, m.bounding_box.y2 = e.bounding_box.y2) ∧
    (∃ e ∈ l, m.confidence_score = e.confidence_score) := by
  match l with
  | [] => cases h
  | elem :: rest =>
    have hm : m = createMergedElementCore elem rest := by
      simpa [createMergedElement] using h.symm
    subst hm
    exact ⟨createMergedElementCore_bounds elem rest,
      createMergedElementCore_attained elem rest⟩

/-! ### C6: merge monotonicity -/

/-- Rectangle containment: `outer` encloses `inner`. -/
def boxContains (outer inner : BoundingBox) : Prop :=
  outer.x ≤ inner.x ∧ outer.y ≤ inner.y ∧ inner.x2 ≤ outer.x2 ∧ inner.y2 ≤ outer.y2

theorem boxContains_refl (b : BoundingBox) : boxContains b b :=
  ⟨le_refl _, le_refl _, le_refl _, le_refl _⟩

theorem mergeGroupGo_length (m : FigureMerger) (l : List Element) :
    (mergeGroupGo m l).length ≤ l.length := by
  induction l using mergeGroupGo.induct m with
  | case1 => simp [mergeGroupGo]
  | case2 e rest a ih =>
    rw [mergeGroupGo]
    simp only [List.length_cons]
    have ih' : (mergeGroupGo m (rest.filter (fun e2 => !shouldMerge m e e2))).length ≤
        (rest.filter (fun e2 => !shouldMerge m e e2)).length := ih
    have h1 : (rest.filter (fun e2 => !shouldMerge m e e2)).length ≤ rest.length :=
      List.length_filter_le _ _
    omega

theorem mergeGroupGo_cover (m : FigureMerger) (l : List Element) :
    ∀ e ∈ l, ∃ mm ∈ mergeGroupGo m l, boxContains mm.bounding_box e.bounding_box := by
  induction l using mergeGroupGo.induct m with
  | case1 => intro e he; cases he
  | case2 e1 rest a ih =>
    intro e he
    rw [mergeGroupGo]
    by_cases hmem : e ∈ rest.filter (fun e2 => !shouldMerge m e1 e2)
    · rcases ih e hmem with ⟨mm, hmm, hcont⟩
      exact ⟨mm, List.mem_cons_of_mem _ hmm, hcont⟩
    · have hcluster : e ∈ e1 :: rest.filter (fun e2 => shouldMerge m e1 e2) := by
        rcases List.mem_cons.mp he with rfl | he'
        · exact List.mem_cons_self _ _
        · refine List.mem_cons_of_mem _ (List.mem_filter.mpr ⟨he', ?_⟩)
          by_contra hno
          exact hmem (List.mem_filter.mpr ⟨he', by
            cases hsm : shouldMerge m e1 e with
            | false => simp
            | true => exact absurd hsm hno⟩)
      by_cases habs : (rest.filter (fun e2 => shouldMerge m e1 e2)).isEmpty
      · have : e = e1 := by
          rcases List.mem_cons.mp hcluster with rfl | he'
          · rfl
          · rw [List.isEmpty_iff] at habs
            rw [habs] at he'
            cases he'
        subst this
        refine ⟨e, ?_, boxContains_refl _⟩
        simp only [habs, if_true]
        exact List.mem_cons_self _ _
      · have hb := createMergedElementCore_bounds e1
          (rest.filter (fun e2 => shouldMerge m e1 e2)) e hcluster
        refine ⟨createMergedElementCore e1 (rest.filter (fun e2 => shouldMerge m e1 e2)),
          ?_, ⟨hb.1, hb.2.1, hb.2.2.1, hb.2.2.2.1⟩⟩
        simp only [habs, if_false]
        exact List.mem_cons_self _ _

theorem mergeGroup_length (m : FigureMerger) (l : List Element) :
    (mergeGroup m l).length ≤ l.length := by
  unfold mergeGroup
  split
  · exact le_refl _
  · calc (mergeGroupGo m (sortByConfidenceDesc l)).length
        ≤ (sortByConfidenceDesc l).length := mergeGroupGo_length _ _
      _ = l.length := (List.perm_insertionSort confDescRel l).length_eq

theorem mergeGroup_cover (m : FigureMerger) (l : List Element) :
    ∀ e ∈ l, ∃ mm ∈ mergeGroup m l, boxContains mm.bounding_box e.bounding_box := by
  intro e he
  unfold mergeGroup
  split
  · exact ⟨e, he, boxContains_refl _⟩
  · exact mergeGroupGo_cover m (sortByConfidenceDesc l) e
      ((List.perm_insertionSort confDescRel l).mem_iff.mpr he)

/-! Key-collection invariants for the insertion-ordered grouping. -/

theorem insertNew_nodup {κ : Type} [DecidableEq κ] (ks : List κ) (k : κ) (h : ks.Nodup) :
    (insertNew ks k).Nodup := by
  unfold insertNew
  split
  · exact h
  · next hk => simp [List.nodup_append, h, hk]

theorem mem_insertNew_self {κ : Type} [DecidableEq κ] (ks : List κ) (k : κ) :
    k ∈ insertNew ks k := by
  unfold insertNew
  split
  · assumption
  · simp

theorem mem_insertNew_of_mem {κ : Type} [DecidableEq κ] (ks : List κ) (k a : κ)
    (h : a ∈ ks) : a ∈ insertNew ks k := by
  unfold insertNew
  split
  · exact h
  · simp [h]

theorem orderedKeys_foldl_nodup {α κ : Type} [DecidableEq κ] (key : α → κ) (l : List α) :
    ∀ ks : List κ, ks.Nodup → (l.foldl (fun ks e => insertNew ks (key e)) ks).Nodup := by
  induction l with
  | nil => intro ks h; exact h
  | cons a rest ih =>
    intro ks h
    exact ih _ (insertNew_nodup ks (key a) h)

theorem orderedKeys_nodup {α κ : Type} [DecidableEq κ] (key : α → κ) (l : List α) :
    (orderedKeys key l).Nodup :=
  orderedKeys_foldl_nodup key l [] List.nodup_nil

theorem orderedKeys_foldl_mono {α κ : Type} [DecidableEq κ] (key : α → κ) (l : List α) :
    ∀ (ks : List κ) (a : κ), a ∈ ks → a ∈ l.foldl (fun ks e => insertNew ks (key e)) ks := by
  induction l with
  | nil => intro ks a h; exact h
  | cons b rest ih =>
    intro ks a h
    exact ih _ a (mem_insertNew_of_mem ks (key b) a h)

theorem orderedKeys_complete {α κ : Type} [DecidableEq κ] (key : α → κ) (l : List α) :
    ∀ e ∈ l, key e ∈ orderedKeys key l := by
  unfold orderedKeys
  have main : ∀ (l : List α) (ks : List κ) (e : α), e ∈ l →
      key e ∈ l.foldl (fun ks e => insertNew ks (key e)) ks := by
    intro l
    induction l with
    | nil => intro ks e h; cases h
    | cons a rest ih =>
      intro ks e h
      rcases List.mem_cons.mp h with rfl | h'
      · exact orderedKeys_foldl_mono key rest _ _ (mem_insertNew_self ks (key e))
      · exact ih _ e h'
  intro e he
  exact main l [] e he

theorem orderedKeys_mem_exists {α κ : Type} [DecidableEq κ] (key : α → κ) (l : List α) :
    ∀ k ∈ orderedKeys key l, ∃ e ∈ l, key e = k := by
  unfold orderedKeys
  have main : ∀ (l : List α) (ks : List κ) (k : κ),
      k ∈ l.foldl (fun ks e => insertNew ks (key e)) ks →
      k ∈ ks ∨ ∃ e ∈ l, key e = k := by
    intro l
    induction l with
    | nil => intro ks k h; exact Or.inl h
    | cons a rest ih =>
      intro ks k h
      rcases ih _ k h with h' | ⟨e, he, hk⟩
      · have h'' : k ∈ insertNew ks (key a) := h'
        by_cases hmem : key a ∈ ks
        · rw [insertNew, if_pos hmem] at h''
          exact Or.inl h''
        · rw [insertNew, if_neg hmem] at h''
          rcases List.mem_append.mp h'' with h3 | h3
          · exact Or.inl h3
          · refine Or.inr ⟨a, List.mem_cons_self _ _, ?_⟩
            have : k = key a := by simpa using h3
            exact this.symm
      · exact Or.inr ⟨e, List.mem_cons_of_mem _ he, hk⟩
  intro k hk
  rcases main l [] k hk with h | h
  · cases h
  · exact h

/-- Partition counting: distinct covering keys split a list into groups
whose lengths sum back to the original length. -/
theorem sum_filter_lengths {α κ : Type} [DecidableEq κ] (key : α → κ) :
    ∀ (ks : List κ) (l : List α), ks.Nodup → (∀ e ∈ l, key e ∈ ks) →
      (ks.map (fun k => (l.filter (fun e => decide (key e = k))).length)).sum = l.length := by
  intro ks
  induction ks with
  | nil =>
    intro l _ hcov
    have : l = [] := List.eq_nil_iff_forall_not_mem.mpr (fun a ha => by cases hcov a ha)
    simp [this]
  | cons k ks' ih =>
    intro l hnd hcov
    have hknot : k ∉ ks' := (List.nodup_cons.mp hnd).1
    have hnd' : ks'.Nodup := (List.nodup_cons.mp hnd).2
    rw [List.map_cons, List.sum_cons]
    have hmapeq : ks'.map (fun k' => (l.filter (fun e => decide (key e = k'))).length) =
        ks'.map (fun k' =>
          ((l.filter (fun e => !decide (key e = k))).filter
            (fun e => decide (key e = k'))).length) := by
      apply List.map_congr_left
      intro k' hk'
      have hne : k' ≠ k := fun h => hknot (h ▸ hk')
      congr 1
      rw [List.filter_filter]
      apply List.filter_congr
      intro a _
      by_cases ha : key a = k'
      · simp [ha, hne]
      · simp [ha]
    rw [hmapeq, ih _ hnd' (fun e he => by
      have := hcov e (List.mem_filter.mp he).1
      rcases List.mem_cons.mp this with h | h
      · exfalso
        have := (List.mem_filter.mp he).2
        simp [h] at this
      · exact h)]
    have hperm := List.filter_append_perm (fun e => decide (key e = k)) l
    have := hperm.length_eq
    rw [List.length_append] at this
    omega

/-- C6: `FigureMerger.merge_elements` never increases the element count,
and every input element's bounding box is contained in the bounding box of
some output element. -/
theorem claim_C6 (m : FigureMerger) (elements : List Element) :
    (mergeElements m elements).length ≤ elements.length ∧
    ∀ e ∈ elements, ∃ mm ∈ mergeElements m elements,
      boxContains mm.bounding_box e.bounding_box := by
  unfold mergeElements
  by_cases hemp : elements.isEmpty
  · rw [if_pos hemp]
    refine ⟨le_refl _, ?_⟩
    intro e he
    exact ⟨e, he, boxContains_refl _⟩
  · rw [if_neg hemp]
    set key := fun e : Element => (e.page_number, e.element_type) with hkey
    constructor
    · rw [List.length_flatMap]
      have hle : ∀ k ∈ orderedKeys key elements,
          (List.length ∘ fun k => mergeGroup m
            (elements.filter (fun e => decide (key e = k)))) k ≤
          (fun k => (elements.filter (fun e => decide (key e = k))).length) k := by
        intro k _
        exact mergeGroup_length m _
      calc (List.map (List.length ∘ fun k => mergeGroup m
            (elements.filter (fun e => decide (key e = k)))) (orderedKeys key elements)).sum
          ≤ (List.map (fun k => (elements.filter (fun e => decide (key e = k))).length)
              (orderedKeys key elements)).sum := List.sum_le_sum hle
        _ = elements.length := sum_filter_lengths key (orderedKeys key elements) elements
            (orderedKeys_nodup key elements) (orderedKeys_complete key elements)
    · intro e he
      have hkmem : key e ∈ orderedKeys key elements := orderedKeys_complete key elements e he
      have hgrp : e ∈ elements.filter (fun x => decide (key x = key e)) :=
        List.mem_filter.mpr ⟨he, by simp⟩
      rcases mergeGroup_cover m _ e hgrp with ⟨mm, hmm, hcont⟩
      exact ⟨mm, List.mem_flatMap.mpr ⟨key e, hkmem, hmm⟩, hcont⟩

/-! ### C9: the association distance is purely vertical -/

/-- C9: `_calculate_distance` returns 0 whenever the boxes overlap in the
y-axis and otherwise the gap between the facing horizontal edges; the
horizontal coordinates never contribute, so two boxes side by side at the
same height have distance 0 and such a caption can be associated. -/
theorem claim_C9 :
    (∀ b1 b2 : BoundingBox, ¬b1.y2 ≤ b2.y → ¬b2.y2 ≤ b1.y → calculateDistance b1 b2 = 0) ∧
    (∀ b1 b2 : BoundingBox, b1.y2 ≤ b2.y → calculateDistance b1 b2 = b2.y - b1.y2) ∧
    (∀ b1 b2 : BoundingBox, ¬b1.y2 ≤ b2.y → b2.y2 ≤ b1.y →
      calculateDistance b1 b2 = b1.y - b2.y2) ∧
    (∀ (b1 b2 : BoundingBox) (x1 w1 x2 w2 : ℚ),
      calculateDistance { b1 with x := x1, width := w1 } { b2 with x := x2, width := w2 } =
        calculateDistance b1 b2) ∧
    (calculateDistance ⟨0, 0, 10, 10, 1, 0⟩ ⟨1000000, 0, 10, 10, 1, 0⟩ = 0 ∧
      bestRealCaption ⟨7, ElementType.figure, ⟨0, 0, 10, 10, 1, 0⟩, 1, 1, 9/10, []⟩
        [⟨"Figure 1".data, ⟨1000000, 0, 10, 10, 1, 0⟩, 1, ElementType.figure, some 1⟩]
        100 =
      some ⟨"Figure 1".data, ⟨1000000, 0, 10, 10, 1, 0⟩, 1, ElementType.figure, some 1⟩) := by
  refine ⟨?_, ?_, ?_, ?_, ?_, ?_⟩
  · intro b1 b2 h1 h2
    simp [calculateDistance, h1, h2]
  · intro b1 b2 h1
    simp [calculateDistance, h1]
  · intro b1 b2 h1 h2
    simp [calculateDistance, h1, h2]
  · intro b1 b2 x1 w1 x2 w2
    simp [calculateDistance, BoundingBox.y2]
  · norm_num [calculateDistance, BoundingBox.y2]
  · norm_num [bestRealCaption, List.filter, isRealCaption, assocStep, assocCandB,
      captionScore, calculateDistance, isCaptionBelow, BoundingBox.y2]
    simp

/-! ### C4: distance-based association scoring -/

theorem assocStep_not_cand (element : Element) (maxd : ℚ) (acc : Option (ℚ × Caption))
    (c0 : Caption) (h : ¬assocCandB element maxd c0 = true) :
    assocStep element maxd acc c0 = acc := by
  unfold assocStep
  rw [if_neg h]

theorem assocStep_none (element : Element) (maxd : ℚ) (c0 : Caption)
    (h : assocCandB element maxd c0 = true) :
    assocStep element maxd none c0 = some (captionScore element c0, c0) := by
  unfold assocStep
  rw [if_pos h]

theorem assocStep_some (element : Element) (maxd : ℚ) (bs : ℚ) (bc : Caption)
    (c0 : Caption) (h : assocCandB element maxd c0 = true) :
    assocStep element maxd (some (bs, bc)) c0 =
      if captionScore element c0 < bs then some (captionScore element c0, c0)
      else some (bs, bc) := by
  unfold assocStep
  rw [if_pos h]

/-- The step never forgets a best: its result is `some` whenever the
accumulator was, and its score never increases. -/
theorem assocStep_mono (element : Element) (maxd : ℚ) (acc : Option (ℚ × Caption))
    (c0 : Caption) :
    (∀ p : ℚ × Caption, assocStep element maxd acc c0 = some p →
      (assocCandB element maxd c0 = true → p.1 ≤ captionScore element c0) ∧
      (∀ q : ℚ × Caption, acc = some q → p.1 ≤ q.1)) ∧
    (∀ q : ℚ × Caption, acc = some q →
      ∃ p : ℚ × Caption, assocStep element maxd acc c0 = some p) := by
  by_cases hcand : assocCandB element maxd c0 = true
  · cases acc with
    | none =>
      rw [assocStep_none element maxd c0 hcand]
      refine ⟨?_, ?_⟩
      · intro p hp
        cases hp
        exact ⟨fun _ => le_refl _, fun q hq => by cases hq⟩
      · intro q hq
        cases hq
    | some bp =>
      obtain ⟨bs, bc⟩ := bp
      rw [assocStep_some element maxd bs bc c0 hcand]
      by_cases hlt : captionScore element c0 < bs
      · rw [if_pos hlt]
        refine ⟨?_, fun q _ => ⟨_, rfl⟩⟩
        intro p hp
        cases hp
        refine ⟨fun _ => le_refl _, ?_⟩
        intro q hq
        cases hq
        exact le_of_lt hlt
      · rw [if_neg hlt]
        refine ⟨?_, fun q _ => ⟨_, rfl⟩⟩
        intro p hp
        cases hp
        refine ⟨fun _ => le_of_not_lt hlt, ?_⟩
        intro q hq
        cases hq
        exact le_refl _
  · rw [assocStep_not_cand element maxd acc c0 hcand]
    refine ⟨?_, fun q hq => ⟨q, hq⟩⟩
    intro p hp
    refine ⟨fun hc => absurd hc hcand, ?_⟩
    intro q hq
    rw [hp] at hq
    cases hq
    exact le_refl _

/-- When the head is a candidate, the step always yields some best. -/
theorem assocStep_cand_some (element : Element) (maxd : ℚ) (acc : Option (ℚ × Caption))
    (c0 : Caption) (hcand : assocCandB element maxd c0 = true) :
    ∃ p : ℚ × Caption, assocStep element maxd acc c0 = some p := by
  cases acc with
  | none => exact ⟨_, assocStep_none element maxd c0 hcand⟩
  | some bp =>
    obtain ⟨bs, bc⟩ := bp
    rw [assocStep_some element maxd bs bc c0 hcand]
    by_cases hlt : captionScore element c0 < bs
    · rw [if_pos hlt]; exact ⟨_, rfl⟩
    · rw [if_neg hlt]; exact ⟨_, rfl⟩

/-- Soundness of the candidate fold: a produced best pair is a candidate
from the traversed list (or was the accumulator), scores itself, and its
score is minimal among all candidates of the list. -/
theorem assocFold_sound (element : Element) (maxd : ℚ) :
    ∀ (l : List Caption) (acc : Option (ℚ × Caption)) (s : ℚ) (c : Caption),
      l.foldl (assocStep element maxd) acc = some (s, c) →
      (acc = some (s, c) ∨
        (c ∈ l ∧ assocCandB element maxd c = true ∧ s = captionScore element c)) ∧
      (∀ c' ∈ l, assocCandB element maxd c' = true → s ≤ captionScore element c') ∧
      (∀ p : ℚ × Caption, acc = some p → s ≤ p.1) := by
  intro l
  induction l with
  | nil =>
    intro acc s c h
    refine ⟨Or.inl h, ?_, ?_⟩
    · intro c' hc'
      cases hc'
    · intro p hp
      have h' : acc = some (s, c) := h
      rw [h'] at hp
      cases hp
      exact le_refl s
  | cons c0 rest ih =>
    intro acc s c h
    rw [List.foldl_cons] at h
    rcases ih (assocStep element maxd acc c0) s c h with ⟨h1, h2, h3⟩
    refine ⟨?_, ?_, ?_⟩
    · rcases h1 with h1 | ⟨hc, hcand, hs⟩
      · by_cases hcand : assocCandB element maxd c0 = true
        · cases hacc : acc with
          | none =>
            rw [hacc, assocStep_none element maxd c0 hcand] at h1
            cases h1
            exact Or.inr ⟨List.mem_cons_self _ _, hcand, rfl⟩
          | some bp =>
            obtain ⟨bs, bc⟩ := bp
            rw [hacc, assocStep_some element maxd bs bc c0 hcand] at h1
            by_cases hlt : captionScore element c0 < bs
            · rw [if_pos hlt] at h1
              cases h1
              exact Or.inr ⟨List.mem_cons_self _ _, hcand, rfl⟩
            · rw [if_neg hlt] at h1
              cases h1
              exact Or.inl rfl
        · rw [assocStep_not_cand element maxd acc c0 hcand] at h1
          exact Or.inl h1
      · exact Or.inr ⟨List.mem_cons_of_mem _ hc, hcand, hs⟩
    · intro c' hc' hcand'
      rcases List.mem_cons.mp hc' with rfl | hc''
      · rcases assocStep_cand_some element maxd acc c' hcand' with ⟨p, hp⟩
        exact le_trans (h3 p hp)
          (((assocStep_mono element maxd acc c').1 p hp).1 hcand')
      · exact h2 c' hc'' hcand'
    · intro p hp
      rcases (assocStep_mono element maxd acc c0).2 p hp with ⟨q, hq⟩
      exact le_trans (h3 q hq) (((assocStep_mono element maxd acc c0).1 q hq).2 p hp)

/-- C4: in step 2 of caption association, a candidate's score equals the
distance when the caption lies below the element and distance + 500
otherwise; candidates at `distance >= max_distance` are rejected before
scoring; the element binds to a lowest-scoring surviving candidate.  In
the concrete scenario, a caption above a figure at vertical gap 10 scores
510, one below at gap 10 scores 10, and the below caption wins. -/
theorem claim_C4 :
    (∀ (element : Element) (caption : Caption),
      (isCaptionBelow element.bounding_box caption.bounding_box →
        captionScore element caption =
          calculateDistance element.bounding_box caption.bounding_box) ∧
      (¬isCaptionBelow element.bounding_box caption.bounding_box →
        captionScore element caption =
          calculateDistance element.bounding_box caption.bounding_box + 500)) ∧
    (∀ (element : Element) (captions : List Caption) (maxd : ℚ) (c : Caption),
      bestRealCaption element captions maxd = some c →
      isAssocCandidate maxd element c ∧
        ∀ c' ∈ captions, isAssocCandidate maxd element c' →
          captionScore element c ≤ captionScore element c') ∧
    (captionScore ⟨7, ElementType.figure, ⟨0, 100, 50, 50, 1, 0⟩, 1, 1, 9/10, []⟩
        ⟨"Figure 2".data, ⟨0, 70, 30, 20, 1, 0⟩, 1, ElementType.figure, some 2⟩ = 510 ∧
      captionScore ⟨7, ElementType.figure, ⟨0, 100, 50, 50, 1, 0⟩, 1, 1, 9/10, []⟩
        ⟨"Figure 1".data, ⟨0, 160, 30, 20, 1, 0⟩, 1, ElementType.figure, some 1⟩ = 10 ∧
      bestRealCaption ⟨7, ElementType.figure, ⟨0, 100, 50, 50, 1, 0⟩, 1, 1, 9/10, []⟩
        [⟨"Figure 2".data, ⟨0, 70, 30, 20, 1, 0⟩, 1, ElementType.figure, some 2⟩,
          ⟨"Figure 1".data, ⟨0, 160, 30, 20, 1, 0⟩, 1, ElementType.figure, some 1⟩]
        100 =
      some ⟨"Figure 1".data, ⟨0, 160, 30, 20, 1, 0⟩, 1, ElementType.figure, some 1⟩) := by
  refine ⟨?_, ?_, ?_, ?_, ?_⟩
  · intro element caption
    constructor
    · intro h
      simp [captionScore, h]
    · intro h
      simp [captionScore, h]
  · intro element captions maxd c h
    unfold bestRealCaption at h
    rcases Option.map_eq_some'.mp h with ⟨⟨s, c'⟩, hfold, hsnd⟩
    have hc'c : c' = c := hsnd
    subst hc'c
    rcases assocFold_sound element maxd (captions.filter isRealCaption) none s c' hfold
      with ⟨h1, h2, _⟩
    rcases h1 with h1 | ⟨hc, hcand, hs⟩
    · cases h1
    constructor
    · have hreal := (List.mem_filter.mp hc).2
      unfold assocCandB at hcand
      simp only [Bool.and_eq_true, decide_eq_true_eq, Bool.not_eq_true',
        decide_eq_false_iff_not] at hcand
      exact ⟨hreal, hcand.1.1.1, hcand.1.1.2, hcand.1.2, hcand.2⟩
    · intro c' hc' hcand'
      rcases hcand' with ⟨hreal', htype', hpage', hparsed', hdist'⟩
      have hcb : assocCandB element maxd c' = true := by
        unfold assocCandB
        simp only [Bool.and_eq_true, decide_eq_true_eq, Bool.not_eq_true',
          decide_eq_false_iff_not]
        exact ⟨⟨⟨htype', hpage'⟩, hparsed'⟩, hdist'⟩
      have hmem : c' ∈ captions.filter isRealCaption := List.mem_filter.mpr ⟨hc', hreal'⟩
      rw [← hs]
      exact h2 c' hmem hcb
  · norm_num [captionScore, calculateDistance, isCaptionBelow, BoundingBox.y2]
  · norm_num [captionScore, calculateDistance, isCaptionBelow, BoundingBox.y2]
  · norm_num [bestRealCaption, List.filter, isRealCaption, assocStep, assocCandB,
      captionScore, calculateDistance, isCaptionBelow, BoundingBox.y2]
    simp
    norm_num

/-! ### C8: caption number parsing -/

/-- C8 counterexample: under `re.IGNORECASE` the letter pattern captures a
lowercase letter, and `_parse_number` upper-cases it before the
`ord(...) - ord('A') + 1` conversion; the claim's formula
`ord(letter) - ord('A') + 1` on the capture `'b'` yields 34, the code
yields 2. -/
theorem claim_C8_counterexample :
    searchFirst (matchLetterAt (kindAlts ElementType.figure)) "fig. b".data =
      some ('b', 6) ∧
    parseNumber "fig. b".data ElementType.figure = some 2 ∧
    'b'.toNat - 'A'.toNat + 1 = 34 ∧ (2 : ℕ) ≠ 34 := by
  refine ⟨by decide, by decide, by decide, by decide⟩

/-- C8 (amended): patterns are tried in declared order with the first
match winning — a digit capture converts directly to an integer, a
single-letter capture converts via `ord(letter.upper()) - ord('A') + 1`,
no match yields `None`; "Figure 7: some text" parses to 7 and "Fig. B"
to 2. -/
theorem claim_C8 :
    (∀ (et : ElementType) (text ds : List Char) (k : ℕ),
      searchFirst (matchDigitAt (kindAlts et)) text = some (ds, k) →
      parseNumber text et = some (digitsToNat ds)) ∧
    (∀ (et : ElementType) (text : List Char) (c : Char) (k : ℕ),
      hasLetterPattern et = true →
      searchFirst (matchDigitAt (kindAlts et)) text = none →
      searchFirst (matchLetterAt (kindAlts et)) text = some (c, k) →
      parseNumber text et = some (c.toUpper.toNat - 'A'.toNat + 1)) ∧
    (∀ (et : ElementType) (text : List Char),
      searchFirst (matchDigitAt (kindAlts et)) text = none →
      (hasLetterPattern et = true →
        searchFirst (matchLetterAt (kindAlts et)) text = none) →
      parseNumber text et = none) ∧
    parseNumber "Figure 7: some text".data ElementType.figure = some 7 ∧
    parseNumber "Fig. B".data ElementType.figure = some 2 := by
  refine ⟨?_, ?_, ?_, by decide, by decide⟩
  · intro et text ds k h
    unfold parseNumber
    rw [h]
  · intro et text c k hlp hdig hlet
    unfold parseNumber
    rw [hdig, if_pos hlp, hlet]
  · intro et text hdig hlet
    unfold parseNumber
    rw [hdig]
    by_cases hlp : hasLetterPattern et = true
    · rw [if_pos hlp, hlet hlp]
    · rw [if_neg hlp]

/-! ### C3: the page-wide number fallback -/

/-- The fallback pass is the identity when no figure caption lacks a
number. -/
theorem assignFallbackGo_id (found : List ℕ) :
    ∀ (used : List ℕ) (l : List Caption),
      (∀ c ∈ l, ¬(c.element_type = ElementType.figure ∧ c.parsed_number = none)) →
      assignFallbackGo found used l = l := by
  intro used l
  induction l generalizing used with
  | nil => intro _; rfl
  | cons c rest ih =>
    intro h
    unfold assignFallbackGo
    rw [if_neg (h c (List.mem_cons_self _ _))]
    rw [ih _ (fun c' hc' => h c' (List.mem_cons_of_mem _ hc'))]

/-- C3 counterexample: on a page whose text mentions "Figure 5" before
"Figure 2" and also "Table 3", a figure caption without a number receives
5 (the first discovered unclaimed number, not the lowest, which is 2),
and a table caption without a number receives nothing at all — both
contradicting the claim. -/
theorem claim_C3_counterexample :
    (extractCaptionsFromPage 1
        [⟨⟨100, 100, 50, 20, 1, 0⟩, ElementType.figure, "a caption".data,
            "a caption".data⟩,
          ⟨⟨100, 300, 50, 20, 1, 0⟩, ElementType.table, "results summary".data,
            "results summary".data⟩]
        "Figure 5 text Figure 2 and Table 3".data).map (fun c => c.parsed_number) =
      [some 5, none] ∧
    (claimExtractCaptions 1
        [⟨⟨100, 100, 50, 20, 1, 0⟩, ElementType.figure, "a caption".data,
            "a caption".data⟩,
          ⟨⟨100, 300, 50, 20, 1, 0⟩, ElementType.table, "results summary".data,
            "results summary".data⟩]
        "Figure 5 text Figure 2 and Table 3".data).map (fun c => c.parsed_number) =
      [some 2, some 3] ∧
    ([some 5, none] : List (Option ℕ)) ≠ [some 2, some 3] := by
  refine ⟨by decide, by decide, by decide⟩

/-- C3 (amended): in `extract_captions_from_page`, exactly the **figure**
captions still lacking a number after per-box parsing are assigned, from
the numbers the figure patterns find in the full page text, the **first
discovered** number not already claimed by another caption on the page,
first-come-first-served in caption order. -/
theorem claim_C3 (page_number : ℕ) (inputs : List CaptionBoxInput)
    (full_page_text : List Char) :
    extractCaptionsFromPage page_number inputs full_page_text =
      amendedExtractCaptions page_number inputs full_page_text := by
  unfold extractCaptionsFromPage amendedExtractCaptions
  by_cases hguard :
      ¬(List.filter
          (fun c => decide (c.parsed_number = none ∧ c.element_type = ElementType.figure))
          (inputs.filterMap (perBoxCaption page_number))).isEmpty ∧
        ¬inputs.isEmpty
  · rw [if_pos hguard]
  · rw [if_neg hguard]
    rw [assignFallbackGo_id]
    intro c hc
    by_cases hw : (List.filter
        (fun c => decide (c.parsed_number = none ∧ c.element_type = ElementType.figure))
        (inputs.filterMap (perBoxCaption page_number))).isEmpty
    · rw [List.isEmpty_iff] at hw
      intro hcond
      have : c ∈ List.filter
          (fun c => decide (c.parsed_number = none ∧ c.element_type = ElementType.figure))
          (inputs.filterMap (perBoxCaption page_number)) :=
        List.mem_filter.mpr ⟨hc, by simp [hcond.1, hcond.2]⟩
      rw [hw] at this
      cases this
    · have hinp : inputs.isEmpty := by
        by_contra hni
        exact hguard ⟨hw, by simpa using hni⟩
      rw [List.isEmpty_iff] at hinp
      rw [hinp] at hc
      cases hc

/-! ### C5: cross-kind overlap removal -/

/-- Full invariant of the `_handle_overlaps` loop: counts add up (one
warning per removed element), every new warning pairs a removed element
with an already-kept overlapping element of no smaller confidence, kept
elements persist, every processed element is kept or warned about, and
pairwise non-overlap of the kept list is preserved. -/
theorem handleOverlapsGo_spec (thr : ℚ) :
    ∀ (rest kept : List Element) (warns : List (Element × Element)),
      (∀ k ∈ kept, ∀ r ∈ rest, r.confidence_score ≤ k.confidence_score) →
      rest.Pairwise confDescRel →
      (handleOverlapsGo thr kept warns rest).1.length +
          (handleOverlapsGo thr kept warns rest).2.length =
        kept.length + warns.length + rest.length ∧
      (∀ p ∈ warns, p ∈ (handleOverlapsGo thr kept warns rest).2) ∧
      (∀ p ∈ (handleOverlapsGo thr kept warns rest).2, p ∈ warns ∨
        (elementsOverlap p.1 p.2 thr = true ∧
          p.2 ∈ (handleOverlapsGo thr kept warns rest).1 ∧
          p.1.confidence_score ≤ p.2.confidence_score ∧ p.1 ∈ rest)) ∧
      (∀ k ∈ kept, k ∈ (handleOverlapsGo thr kept warns rest).1) ∧
      (∀ e ∈ rest, e ∈ (handleOverlapsGo thr kept warns rest).1 ∨
        ∃ k, (e, k) ∈ (handleOverlapsGo thr kept warns rest).2) ∧
      (kept.Pairwise (fun a b => elementsOverlap b a thr = false) →
        (handleOverlapsGo thr kept warns rest).1.Pairwise
          (fun a b => elementsOverlap b a thr = false)) ∧
      (∀ e ∈ (handleOverlapsGo thr kept warns rest).1, e ∈ kept ∨ e ∈ rest) := by
  intro rest
  induction rest with
  | nil =>
    intro kept warns _ _
    unfold handleOverlapsGo
    refine ⟨by simp, fun p hp => hp, fun p hp => Or.inl hp, fun k hk => hk, ?_, ?_, ?_⟩
    · intro e he
      cases he
    · intro h
      exact h
    · intro e he
      exact Or.inl he
  | cons e rest' ih =>
    intro kept warns hconf hpair
    have hpairtail := (List.pairwise_cons.mp hpair).2
    have hheadrel := (List.pairwise_cons.mp hpair).1
    cases hfind : kept.find? (fun k => elementsOverlap e k thr) with
    | some k =>
      have hrec : handleOverlapsGo thr kept warns (e :: rest') =
          handleOverlapsGo thr kept (warns ++ [(e, k)]) rest' := by
        conv_lhs => rw [handleOverlapsGo]
        rw [hfind]
      have hconf' : ∀ k' ∈ kept, ∀ r ∈ rest', r.confidence_score ≤ k'.confidence_score :=
        fun k' hk' r hr => hconf k' hk' r (List.mem_cons_of_mem _ hr)
      rcases ih kept (warns ++ [(e, k)]) hconf' hpairtail
        with ⟨hlen, hwmono, hwchar, hkmono, hcover, hpairkeep, hkorig⟩
      have hkmem : k ∈ kept := List.mem_of_find?_eq_some hfind
      have hkover : elementsOverlap e k thr = true := by
        have := List.find?_some hfind
        simpa using this
      rw [hrec]
      refine ⟨?_, ?_, ?_, hkmono, ?_, hpairkeep, ?_⟩
      · rw [hlen]
        simp only [List.length_append, List.length_cons, List.length_nil]
        omega
      · intro p hp
        exact hwmono p (List.mem_append_left _ hp)
      · intro p hp
        rcases hwchar p hp with hp' | hp'
        · rcases List.mem_append.mp hp' with hp'' | hp''
          · exact Or.inl hp''
          · have hpe : p = (e, k) := by simpa using hp''
            subst hpe
            refine Or.inr ⟨hkover, hkmono k hkmem, ?_, List.mem_cons_self _ _⟩
            exact hconf k hkmem e (List.mem_cons_self _ _)
        · exact Or.inr ⟨hp'.1, hp'.2.1, hp'.2.2.1, List.mem_cons_of_mem _ hp'.2.2.2⟩
      · intro x hx
        rcases List.mem_cons.mp hx with rfl | hx'
        · exact Or.inr ⟨k, hwmono (x, k) (List.mem_append_right _ (by simp))⟩
        · exact hcover x hx'
      · intro x hx
        rcases hkorig x hx with h | h
        · exact Or.inl h
        · exact Or.inr (List.mem_cons_of_mem _ h)
    | none =>
      have hrec : handleOverlapsGo thr kept warns (e :: rest') =
          handleOverlapsGo thr (kept ++ [e]) warns rest' := by
        conv_lhs => rw [handleOverlapsGo]
        rw [hfind]
      have hconf' : ∀ k' ∈ kept ++ [e], ∀ r ∈ rest',
          r.confidence_score ≤ k'.confidence_score := by
        intro k' hk' r hr
        rcases List.mem_append.mp hk' with hk'' | hk''
        · exact hconf k' hk'' r (List.mem_cons_of_mem _ hr)
        · have : k' = e := by simpa using hk''
          subst this
          exact List.rel_of_pairwise_cons hpair hr
      rcases ih (kept ++ [e]) warns hconf' hpairtail
        with ⟨hlen, hwmono, hwchar, hkmono, hcover, hpairkeep, hkorig⟩
      rw [hrec]
      refine ⟨?_, hwmono, ?_, ?_, ?_, ?_, ?_⟩
      · rw [hlen]
        simp only [List.length_append, List.length_cons, List.length_nil]
        omega
      · intro p hp
        rcases hwchar p hp with hp' | hp'
        · exact Or.inl hp'
        · exact Or.inr ⟨hp'.1, hp'.2.1, hp'.2.2.1, List.mem_cons_of_mem _ hp'.2.2.2⟩
      · intro k' hk'
        exact hkmono k' (List.mem_append_left _ hk')
      · intro x hx
        rcases List.mem_cons.mp hx with rfl | hx'
        · exact Or.inl (hkmono x (List.mem_append_right _ (by simp)))
        · exact hcover x hx'
      · intro hkp
        apply hpairkeep
        rw [List.pairwise_append]
        refine ⟨hkp, by simp, ?_⟩
        intro a ha b hb
        have hbe : b = e := by simpa using hb
        subst hbe
        have := List.find?_eq_none.mp hfind a ha
        simpa using this
      · intro x hx
        rcases hkorig x hx with h | h
        · rcases List.mem_append.mp h with h' | h'
          · exact Or.inl h'
          · have : x = e := by simpa using h'
            subst this
            exact Or.inr (List.mem_cons_self _ _)
        · exact Or.inr (List.mem_cons_of_mem _ h)

/-- C5: with several kinds requested, `_handle_overlaps` (threshold 0.5)
removes every element overlapping an already-kept element on the same
page regardless of kind, always keeps the higher-confidence one, records
exactly one warning per removal, and on the concrete Figure-0.9 /
Table-0.6 page with IoU 0.6 only the Figure survives with one warning. -/
theorem claim_C5 (elements : List Element) (thr : ℚ) :
    ((handleOverlaps elements thr).1.length + (handleOverlaps elements thr).2.length =
      elements.length) ∧
    (∀ p ∈ (handleOverlaps elements thr).2,
      elementsOverlap p.1 p.2 thr = true ∧ p.2 ∈ (handleOverlaps elements thr).1 ∧
        p.1.confidence_score ≤ p.2.confidence_score) ∧
    ((handleOverlaps elements thr).1.Pairwise
      (fun a b => elementsOverlap b a thr = false)) ∧
    (∀ e ∈ elements, e ∈ (handleOverlaps elements thr).1 ∨
      ∃ k ∈ (handleOverlaps elements thr).1,
        elementsOverlap e k thr = true ∧
          e.confidence_score ≤ k.confidence_score) ∧
    (handleOverlaps
        [⟨1, ElementType.figure, ⟨0, 0, 10, 10, 1, 0⟩, 1, 1, 9/10, []⟩,
          ⟨2, ElementType.table, ⟨0, 5/2, 10, 10, 1, 0⟩, 1, 1, 6/10, []⟩] (1/2) =
      ([⟨1, ElementType.figure, ⟨0, 0, 10, 10, 1, 0⟩, 1, 1, 9/10, []⟩],
        [(⟨2, ElementType.table, ⟨0, 5/2, 10, 10, 1, 0⟩, 1, 1, 6/10, []⟩,
          ⟨1, ElementType.figure, ⟨0, 0, 10, 10, 1, 0⟩, 1, 1, 9/10, []⟩)])) := by
  have hmain : ∀ elements : List Element,
      ((handleOverlaps elements thr).1.length +
          (handleOverlaps elements thr).2.length = elements.length) ∧
      (∀ p ∈ (handleOverlaps elements thr).2,
        elementsOverlap p.1 p.2 thr = true ∧ p.2 ∈ (handleOverlaps elements thr).1 ∧
          p.1.confidence_score ≤ p.2.confidence_score) ∧
      ((handleOverlaps elements thr).1.Pairwise
        (fun a b => elementsOverlap b a thr = false)) ∧
      (∀ e ∈ elements, e ∈ (handleOverlaps elements thr).1 ∨
        ∃ k ∈ (handleOverlaps elements thr).1,
          elementsOverlap e k thr = true ∧
            e.confidence_score ≤ k.confidence_score) := by
    intro elements
    unfold handleOverlaps
    by_cases hsmall : elements.length ≤ 1
    · rw [if_pos hsmall]
      refine ⟨?_, ?_, ?_, ?_⟩
      · simp
      · intro p hp
        cases hp
      · match elements, hsmall with
        | [], _ => exact List.Pairwise.nil
        | [a], _ => exact List.pairwise_singleton _ a
      · intro e he
        exact Or.inl he
    · rw [if_neg hsmall]
      have hsorted : (sortByConfidenceDesc elements).Pairwise confDescRel :=
        List.sorted_insertionSort confDescRel elements
      have hperm := List.perm_insertionSort confDescRel elements
      rcases handleOverlapsGo_spec thr (sortByConfidenceDesc elements) [] []
          (by intro k hk; cases hk) hsorted
        with ⟨hlen, _, hwchar, _, hcover, hpairkeep, _⟩
      refine ⟨?_, ?_, ?_, ?_⟩
      · rw [hlen]
        simp only [List.length_nil, Nat.zero_add]
        exact hperm.length_eq
      · intro p hp
        rcases hwchar p hp with h | h
        · cases h
        · exact ⟨h.1, h.2.1, h.2.2.1⟩
      · exact hpairkeep List.Pairwise.nil
      · intro e he
        rcases hcover e (hperm.mem_iff.mpr he) with h | ⟨k, hk⟩
        · exact Or.inl h
        · rcases hwchar (e, k) hk with h' | h'
          · cases h'
          · exact Or.inr ⟨k, h'.2.1, h'.1, h'.2.2.1⟩
  refine ⟨(hmain elements).1, (hmain elements).2.1, (hmain elements).2.2.1,
    (hmain elements).2.2.2, ?_⟩
  norm_num [handleOverlaps, handleOverlapsGo, sortByConfidenceDesc, List.insertionSort,
    List.orderedInsert, confDescRel, elementsOverlap, BoundingBox.x2, BoundingBox.y2,
    BoundingBox.area]

/-! ### C1: caption-driven merge (Pass B) -/

theorem count_filterMap_fst_zero {κ β γ : Type} [DecidableEq β] (f : κ → Option (β × γ))
    (m : β) :
    ∀ keys : List κ, (∀ k ∈ keys, ∀ pr, f k = some pr → pr.1 ≠ m) →
      ((keys.filterMap f).map Prod.fst).count m = 0 := by
  intro keys
  induction keys with
  | nil => intro _; rfl
  | cons k ks ih =>
    intro h
    rw [List.filterMap_cons]
    cases hk : f k with
    | none => exact ih (fun k' hk' => h k' (List.mem_cons_of_mem _ hk'))
    | some pr =>
      rw [List.map_cons, List.count_cons]
      rw [ih (fun k' hk' => h k' (List.mem_cons_of_mem _ hk'))]
      have : pr.1 ≠ m := h k (List.mem_cons_self _ _) pr hk
      simp [this]

theorem count_filterMap_fst_one {κ β γ : Type} [DecidableEq β] (f : κ → Option (β × γ))
    (k₀ : κ) (m : β) (c : γ) :
    ∀ keys : List κ, keys.Nodup → k₀ ∈ keys → f k₀ = some (m, c) →
      (∀ k ∈ keys, k ≠ k₀ → ∀ pr, f k = some pr → pr.1 ≠ m) →
      ((keys.filterMap f).map Prod.fst).count m = 1 := by
  intro keys
  induction keys with
  | nil => intro _ h; cases h
  | cons k ks ih =>
    intro hnd hmem hf hothers
    rcases List.mem_cons.mp hmem with rfl | hmem'
    · rw [List.filterMap_cons, hf, List.map_cons, List.count_cons]
      rw [count_filterMap_fst_zero f m ks]
      · simp
      · intro k' hk' pr hpr
        have hne : k' ≠ k₀ := fun h => ((List.nodup_cons.mp hnd).1 (h ▸ hk'))
        exact hothers k' (List.mem_cons_of_mem _ hk') hne pr hpr
    · have hne : k ≠ k₀ := fun h => ((List.nodup_cons.mp hnd).1 (h ▸ hmem'))
      rw [List.filterMap_cons]
      cases hk : f k with
      | none =>
        exact ih (List.nodup_cons.mp hnd).2 hmem' hf
          (fun k' hk' => hothers k' (List.mem_cons_of_mem _ hk'))
      | some pr =>
        rw [List.map_cons, List.count_cons]
        rw [ih (List.nodup_cons.mp hnd).2 hmem' hf
          (fun k' hk' => hothers k' (List.mem_cons_of_mem _ hk'))]
        have : pr.1 ≠ m := hothers k (List.mem_cons_self _ _) hne pr hk
        simp [this]

/-- Filtering an association group over the associated sublist is the same
as filtering over all elements, when the key carries a `some` caption. -/
theorem assocGroup_filter_eq (elements : List Element) (assoc : List (ℕ × Caption))
    (k : ℕ × ElementType × Option Caption) (hk : k.2.2.isSome) :
    (elements.filter (fun e => (lookupAssoc assoc e.element_id).isSome)).filter
        (fun e => decide (assocKey assoc e = k)) =
      elements.filter (fun e => decide (assocKey assoc e = k)) := by
  rw [List.filter_filter]
  apply List.filter_congr
  intro e _
  by_cases he : assocKey assoc e = k
  · have hs : (lookupAssoc assoc e.element_id).isSome := by
      have hlk : lookupAssoc assoc e.element_id = k.2.2 := congrArg (fun q => q.2.2) he
      rw [hlk]
      exact hk
    simp [he, hs]
  · simp [he]

/-- The merged element keeps the head's identity, kind and page, so its
association key equals the group's key. -/
theorem assocKey_createMerged (assoc : List (ℕ × Caption)) (h0 : Element)
    (rest : List Element) :
    assocKey assoc (createMergedElementCore h0 rest) = assocKey assoc h0 := rfl

/-- A successful group merge produces an element whose association key is
the group's key. -/
theorem sharedGroupMerge_key (elements : List Element) (assoc : List (ℕ × Caption)) :
    ∀ (k : ℕ × ElementType × Option Caption) (pr : Element × Caption),
      sharedGroupMerge elements assoc k = some pr → assocKey assoc pr.1 = k := by
  intro k pr h
  unfold sharedGroupMerge at h
  cases hfil : (elements.filter
      (fun e => (lookupAssoc assoc e.element_id).isSome)).filter
      (fun e => decide (assocKey assoc e = k)) with
  | nil =>
    rw [hfil] at h
    cases h
  | cons hd tl =>
    rw [hfil] at h
    have hd_key : assocKey assoc hd = k := by
      have hdmem : hd ∈ (elements.filter
          (fun e => (lookupAssoc assoc e.element_id).isSome)).filter
          (fun e => decide (assocKey assoc e = k)) := by
        rw [hfil]
        exact List.mem_cons_self _ _
      simpa using (List.mem_filter.mp hdmem).2
    have h2 : (match lookupAssoc assoc hd.element_id with
        | some cap =>
          some ((if tl.isEmpty then hd else createMergedElementCore hd tl), cap)
        | none => (none : Option (Element × Caption))) = some pr := h
    cases hl : lookupAssoc assoc hd.element_id with
    | none =>
      rw [hl] at h2
      cases h2
    | some cap =>
      rw [hl] at h2
      injection h2 with h'
      rw [← h']
      cases htl : tl.isEmpty with
      | true =>
        simp only [htl, if_true]
        simpa using hd_key
      | false =>
        simp only [htl, Bool.false_eq_true, if_false]
        rw [assocKey_createMerged]
        exact hd_key

/-- C1 (spec-modelled): when two or more same-kind, same-page elements are
bound to the identical caption `c`, `merge_by_shared_captions` replaces
them with the single element merging their boxes (min-enclosing rectangle,
max confidence), maps the shared caption to that merged element in the
updated association, and passes elements without association through
unchanged. -/
theorem claim_C1 (elements : List Element) (assoc : List (ℕ × Caption)) (p : ℕ)
    (t : ElementType) (c : Caption) (h0 : Element) (rest : List Element)
    (hG : elements.filter
        (fun e => decide (assocKey assoc e = (p, t, some c))) = h0 :: rest)
    (hrest : rest ≠ []) :
    createMergedElementCore h0 rest ∈ (mergeBySharedCaptions elements assoc).1 ∧
    ((createMergedElementCore h0 rest).element_id, c) ∈
      (mergeBySharedCaptions elements assoc).2 ∧
    (∀ e ∈ h0 :: rest,
      (createMergedElementCore h0 rest).bounding_box.x ≤ e.bounding_box.x ∧
      (createMergedElementCore h0 rest).bounding_box.y ≤ e.bounding_box.y ∧
      e.bounding_box.x2 ≤ (createMergedElementCore h0 rest).bounding_box.x2 ∧
      e.bounding_box.y2 ≤ (createMergedElementCore h0 rest).bounding_box.y2 ∧
      e.confidence_score ≤ (createMergedElementCore h0 rest).confidence_score) ∧
    (∃ e ∈ h0 :: rest,
      (createMergedElementCore h0 rest).confidence_score = e.confidence_score) ∧
    ((mergeBySharedCaptions elements assoc).1.count (createMergedElementCore h0 rest) =
      1) ∧
    (∀ e ∈ h0 :: rest, e ∈ (mergeBySharedCaptions elements assoc).1 →
      e = createMergedElementCore h0 rest) ∧
    (∀ e ∈ elements, lookupAssoc assoc e.element_id = none →
      e ∈ (mergeBySharedCaptions elements assoc).1) := by
  have hkey : ∀ e ∈ h0 :: rest, assocKey assoc e = (p, t, some c) := by
    intro e he
    rw [← hG] at he
    have := (List.mem_filter.mp he).2
    simpa using this
  have hmem_elements : ∀ e ∈ h0 :: rest, e ∈ elements := by
    intro e he
    rw [← hG] at he
    exact (List.mem_filter.mp he).1
  have hsome : ∀ e ∈ h0 :: rest, (lookupAssoc assoc e.element_id).isSome := by
    intro e he
    have hk := hkey e he
    have : lookupAssoc assoc e.element_id = some c := by
      have := congrArg (fun q => q.2.2) hk
      simpa [assocKey] using this
    rw [this]
    rfl
  have hgroup : (elements.filter
        (fun e => (lookupAssoc assoc e.element_id).isSome)).filter
      (fun e => decide (assocKey assoc e = (p, t, some c))) = h0 :: rest := by
    rw [assocGroup_filter_eq elements assoc (p, t, some c) rfl]
    exact hG
  have hlookup_h0 : lookupAssoc assoc h0.element_id = some c := by
    have := congrArg (fun q => q.2.2) (hkey h0 (List.mem_cons_self _ _))
    simpa [assocKey] using this
  -- the key of the shared group is collected
  have hk0mem : (p, t, some c) ∈ orderedKeys (assocKey assoc)
      (elements.filter (fun e => (lookupAssoc assoc e.element_id).isSome)) := by
    have h0mem : h0 ∈ elements.filter
        (fun e => (lookupAssoc assoc e.element_id).isSome) :=
      List.mem_filter.mpr ⟨hmem_elements h0 (List.mem_cons_self _ _), by
        have := hsome h0 (List.mem_cons_self _ _)
        simpa using this⟩
    have := orderedKeys_complete (assocKey assoc) _ h0 h0mem
    rwa [hkey h0 (List.mem_cons_self _ _)] at this
  -- the group function evaluated at the shared key
  have hrestE : rest.isEmpty = false := by
    cases rest with
    | nil => exact absurd rfl hrest
    | cons a l => rfl
  have hf : sharedGroupMerge elements assoc (p, t, some c) =
      some (createMergedElementCore h0 rest, c) := by
    unfold sharedGroupMerge
    rw [hgroup]
    show (match lookupAssoc assoc h0.element_id with
        | some cap =>
          some ((if rest.isEmpty then h0 else createMergedElementCore h0 rest), cap)
        | none => (none : Option (Element × Caption))) =
      some (createMergedElementCore h0 rest, c)
    rw [hlookup_h0]
    show some ((if rest.isEmpty then h0 else createMergedElementCore h0 rest), c) =
      some (createMergedElementCore h0 rest, c)
    rw [hrestE]
    simp
  have hout1 : (mergeBySharedCaptions elements assoc).1 =
      ((orderedKeys (assocKey assoc)
          (elements.filter (fun e => (lookupAssoc assoc e.element_id).isSome))).filterMap
        (sharedGroupMerge elements assoc)).map Prod.fst ++
        elements.filter (fun e => !(lookupAssoc assoc e.element_id).isSome) := rfl
  have hout2 : (mergeBySharedCaptions elements assoc).2 =
      ((orderedKeys (assocKey assoc)
          (elements.filter (fun e => (lookupAssoc assoc e.element_id).isSome))).filterMap
        (sharedGroupMerge elements assoc)).map (fun p => (p.1.element_id, p.2)) := rfl
  have hpairmem : (createMergedElementCore h0 rest, c) ∈
      (orderedKeys (assocKey assoc)
        (elements.filter (fun e => (lookupAssoc assoc e.element_id).isSome))).filterMap
      (sharedGroupMerge elements assoc) :=
    List.mem_filterMap.mpr ⟨(p, t, some c), hk0mem, hf⟩
  have hmerged_not_unassoc : ∀ e ∈ elements.filter
      (fun e => !(lookupAssoc assoc e.element_id).isSome),
      e ≠ createMergedElementCore h0 rest := by
    intro e he heq
    have hpred := (List.mem_filter.mp he).2
    rw [heq] at hpred
    have : lookupAssoc assoc (createMergedElementCore h0 rest).element_id =
        lookupAssoc assoc h0.element_id := rfl
    rw [this, hlookup_h0] at hpred
    simp at hpred
  refine ⟨?_, ?_, createMergedElementCore_bounds h0 rest,
    (createMergedElementCore_attained h0 rest).2.2.2.2, ?_, ?_, ?_⟩
  · rw [hout1]
    exact List.mem_append_left _ (List.mem_map_of_mem Prod.fst hpairmem)
  · rw [hout2]
    exact List.mem_map.mpr ⟨(createMergedElementCore h0 rest, c), hpairmem, rfl⟩
  · rw [hout1, List.count_append]
    have hz : (elements.filter
        (fun e => !(lookupAssoc assoc e.element_id).isSome)).count
          (createMergedElementCore h0 rest) = 0 := by
      rw [List.count_eq_zero]
      intro hmem
      exact hmerged_not_unassoc _ hmem rfl
    rw [hz]
    rw [count_filterMap_fst_one (sharedGroupMerge elements assoc) (p, t, some c)
      (createMergedElementCore h0 rest) c _ (orderedKeys_nodup _ _) hk0mem hf ?_]
    intro k hk hkne pr hpr
    intro heq
    have hkeypr := sharedGroupMerge_key elements assoc k pr hpr
    rw [heq] at hkeypr
    rw [assocKey_createMerged] at hkeypr
    rw [hkey h0 (List.mem_cons_self _ _)] at hkeypr
    exact hkne hkeypr.symm
  · intro e he hmem
    rw [hout1] at hmem
    rcases List.mem_append.mp hmem with hmem' | hmem'
    · rcases List.mem_map.mp hmem' with ⟨pr, hpr, hfst⟩
      rcases List.mem_filterMap.mp hpr with ⟨k, _, hfk⟩
      have hkeypr := sharedGroupMerge_key elements assoc k pr hfk
      rw [hfst] at hkeypr
      rw [hkey e he] at hkeypr
      rw [← hkeypr] at hfk
      rw [hf] at hfk
      have : pr = (createMergedElementCore h0 rest, c) := by
        injection hfk with h'
        exact h'.symm
      rw [← hfst, this]
    · exfalso
      have hpred := (List.mem_filter.mp hmem').2
      have hs := hsome e he
      rw [Bool.not_eq_true'] at hpred
      rw [hpred] at hs
      cases hs
  · intro e he hnone
    rw [hout1]
    refine List.mem_append_right _ (List.mem_filter.mpr ⟨he, ?_⟩)
    rw [hnone]
    rfl

/-! ### Decimal numerals: digits, decoding, injectivity -/

theorem digitOf_isDigit (d : ℕ) : (digitOf d).isDigit = true := by
  unfold digitOf
  split <;> decide

theorem digitOf_toNat (d : ℕ) (h : d < 10) : (digitOf d).toNat = 48 + d := by
  interval_cases d <;> decide

theorem decReprGo_spec : ∀ (n fuel : ℕ) (acc : List Char), n < fuel →
    decReprGo fuel n acc = decReprGo (n + 1) n [] ++ acc := by
  intro n
  induction n using Nat.strong_induction_on with
  | _ n ih =>
    intro fuel acc hlt
    cases fuel with
    | zero => omega
    | succ f =>
      by_cases h10 : n < 10
      · simp only [decReprGo, if_pos h10]
        rfl
      · simp only [decReprGo, if_neg h10]
        have hdiv : n / 10 < n := Nat.div_lt_self (by omega) (by norm_num)
        rw [ih (n / 10) hdiv f (digitOf (n % 10) :: acc) (by omega)]
        rw [ih (n / 10) hdiv n (digitOf (n % 10) :: []) (by omega)]
        rw [List.append_assoc]
        rfl

theorem decRepr_small (n : ℕ) (h : n < 10) : decRepr n = [digitOf n] := by
  unfold decRepr
  simp only [decReprGo, if_pos h]

theorem decRepr_step (n : ℕ) (h : ¬n < 10) :
    decRepr n = decRepr (n / 10) ++ [digitOf (n % 10)] := by
  unfold decRepr
  conv_lhs => simp only [decReprGo, if_neg h]
  exact decReprGo_spec (n / 10) n [digitOf (n % 10)]
    (Nat.div_lt_self (by omega) (by norm_num))

theorem decRepr_ne_nil (n : ℕ) : decRepr n ≠ [] := by
  by_cases h : n < 10
  · rw [decRepr_small n h]
    simp
  · rw [decRepr_step n h]
    simp

theorem decRepr_all_digits (n : ℕ) : ∀ ch ∈ decRepr n, ch.isDigit = true := by
  induction n using Nat.strong_induction_on with
  | _ n ih =>
    by_cases h : n < 10
    · rw [decRepr_small n h]
      intro ch hch
      have : ch = digitOf n := by simpa using hch
      rw [this]
      exact digitOf_isDigit n
    · rw [decRepr_step n h]
      intro ch hch
      rcases List.mem_append.mp hch with h' | h'
      · exact ih (n / 10) (Nat.div_lt_self (by omega) (by norm_num)) ch h'
      · have : ch = digitOf (n % 10) := by simpa using h'
        rw [this]
        exact digitOf_isDigit (n % 10)

theorem digitsToNat_append_digit (xs : List Char) (ch : Char) :
    digitsToNat (xs ++ [ch]) = 10 * digitsToNat xs + (ch.toNat - 48) := by
  unfold digitsToNat
  rw [List.foldl_append]
  rfl

theorem decRepr_decode (n : ℕ) : digitsToNat (decRepr n) = n := by
  induction n using Nat.strong_induction_on with
  | _ n ih =>
    by_cases h : n < 10
    · rw [decRepr_small n h]
      unfold digitsToNat
      simp only [List.foldl_cons, List.foldl_nil]
      rw [digitOf_toNat n h]
      omega
    · rw [decRepr_step n h, digitsToNat_append_digit]
      rw [ih (n / 10) (Nat.div_lt_self (by omega) (by norm_num))]
      rw [digitOf_toNat (n % 10) (Nat.mod_lt n (by norm_num))]
      omega

theorem decRepr_inj {n m : ℕ} (h : decRepr n = decRepr m) : n = m := by
  have := congrArg digitsToNat h
  rwa [decRepr_decode, decRepr_decode] at this

/-! ### Rendering naming patterns: injectivity -/

/-- Length contribution of a token, the counter numeral excluded. -/
def tokenBaseLen (t : ElementType) : PatToken → ℕ
  | .lit s => s.length
  | .typePlaceholder => t.value.length
  | .counterPlaceholder => 0

theorem renderPattern_nil (t : ElementType) (c : ℕ) : renderPattern [] t c = [] := rfl

theorem renderPattern_cons (tok : PatToken) (pat : List PatToken) (t : ElementType)
    (c : ℕ) :
    renderPattern (tok :: pat) t c = renderToken t c tok ++ renderPattern pat t c := by
  unfold renderPattern
  rw [List.flatMap_cons]

theorem renderPattern_length (pat : List PatToken) (t : ElementType) (c : ℕ) :
    (renderPattern pat t c).length =
      (pat.map (tokenBaseLen t)).sum +
        pat.count PatToken.counterPlaceholder * (decRepr c).length := by
  induction pat with
  | nil => simp [renderPattern]
  | cons tok rest ih =>
    rw [renderPattern_cons, List.length_append, ih, List.map_cons, List.sum_cons,
      List.count_cons]
    cases tok with
    | lit s => simp [renderToken, tokenBaseLen]; ring
    | typePlaceholder => simp [renderToken, tokenBaseLen]; ring
    | counterPlaceholder =>
      simp [renderToken, tokenBaseLen]
      ring

/-- Alignment: with equal numeral lengths, equal renders force equal
counters (Lemma A core). -/
theorem renderPattern_eq_counter : ∀ (pat : List PatToken) (t : ElementType) (c1 c2 : ℕ),
    (decRepr c1).length = (decRepr c2).length →
    renderPattern pat t c1 = renderPattern pat t c2 →
    PatToken.counterPlaceholder ∈ pat → c1 = c2 := by
  intro pat
  induction pat with
  | nil =>
    intro t c1 c2 _ _ hmem
    cases hmem
  | cons tok rest ih =>
    intro t c1 c2 hlen h hmem
    rw [renderPattern_cons, renderPattern_cons] at h
    have hplen : (renderToken t c1 tok).length = (renderToken t c2 tok).length := by
      cases tok with
      | lit s => rfl
      | typePlaceholder => rfl
      | counterPlaceholder => exact hlen
    rcases List.append_inj h hplen with ⟨hpiece, hrest⟩
    cases tok with
    | lit s => exact ih t c1 c2 hlen hrest (by
        rcases List.mem_cons.mp hmem with h' | h'
        · cases h'
        · exact h')
    | typePlaceholder => exact ih t c1 c2 hlen hrest (by
        rcases List.mem_cons.mp hmem with h' | h'
        · cases h'
        · exact h')
    | counterPlaceholder => exact decRepr_inj hpiece

/-- Lemma A: for a fixed kind, rendering is injective in the counter as
soon as the pattern contains `{counter}`. -/
theorem renderPattern_counter_inj (pat : List PatToken) (t : ElementType) (c1 c2 : ℕ)
    (hC : PatToken.counterPlaceholder ∈ pat)
    (h : renderPattern pat t c1 = renderPattern pat t c2) : c1 = c2 := by
  have hcnt : 0 < pat.count PatToken.counterPlaceholder := List.count_pos_iff.mpr hC
  have hlen := congrArg List.length h
  rw [renderPattern_length, renderPattern_length] at hlen
  have hL : (decRepr c1).length = (decRepr c2).length := by
    have := Nat.add_left_cancel hlen
    exact Nat.eq_of_mul_eq_mul_left hcnt this
  exact renderPattern_eq_counter pat t c1 c2 hL h hC

/-- Length of the maximal digit prefix of a string. -/
def digitPrefixLen (cs : List Char) : ℕ := (cs.takeWhile (fun c => c.isDigit)).length

theorem dpl_append_all (d r : List Char) (hd : ∀ ch ∈ d, ch.isDigit = true) :
    digitPrefixLen (d ++ r) = d.length + digitPrefixLen r := by
  induction d with
  | nil => simp
  | cons ch d' ih =>
    unfold digitPrefixLen
    rw [List.cons_append, List.takeWhile_cons]
    rw [hd ch (List.mem_cons_self _ _)]
    simp only [if_true, List.length_cons]
    have := ih (fun ch' h' => hd ch' (List.mem_cons_of_mem _ h'))
    unfold digitPrefixLen at this
    omega

theorem dpl_cons_not (ch : Char) (r : List Char) (h : ch.isDigit = false) :
    digitPrefixLen (ch :: r) = 0 := by
  unfold digitPrefixLen
  rw [List.takeWhile_cons, h]
  rfl

theorem dropWhile_head_false {p : Char → Bool} :
    ∀ (l : List Char) (x : Char) (xs : List Char), l.dropWhile p = x :: xs →
      p x = false := by
  intro l
  induction l with
  | nil => intro x xs h; cases h
  | cons c rest ih =>
    intro x xs h
    rw [List.dropWhile_cons] at h
    by_cases hc : p c = true
    · rw [if_pos hc] at h
      exact ih x xs h
    · rw [if_neg hc] at h
      injection h with h1 _
      rw [← h1]
      exact Bool.not_eq_true _ ▸ (Bool.eq_false_iff.mpr hc)

/-- Every kind's value string starts with a non-digit letter. -/
theorem typeValue_cons (t : ElementType) :
    ∃ (hd : Char) (tl : List Char), t.value = hd :: tl ∧ hd.isDigit = false := by
  cases t with
  | figure => exact ⟨'f', "igure".data, rfl, by decide⟩
  | table => exact ⟨'t', "able".data, rfl, by decide⟩
  | equation => exact ⟨'e', "quation".data, rfl, by decide⟩

/-- The three kind value strings are distinguished by their first
character. -/
theorem typeValue_head_inj (t1 t2 : ElementType) (hd1 hd2 : Char) (tl1 tl2 : List Char)
    (h1 : t1.value = hd1 :: tl1) (h2 : t2.value = hd2 :: tl2) (h : hd1 = hd2) :
    t1 = t2 := by
  cases t1 <;> cases t2 <;> simp_all [ElementType.value] <;>
    exact absurd (h1.1.trans h2.1.symm) (by decide)

/-- Lemma B: equal renders, each possibly preceded by digit noise, force
equal kinds once the pattern contains `{type}`. -/
theorem renderPattern_type_recover :
    ∀ (pat : List PatToken) (d1 d2 : List Char) (t1 t2 : ElementType) (c1 c2 : ℕ),
      (∀ ch ∈ d1, ch.isDigit = true) → (∀ ch ∈ d2, ch.isDigit = true) →
      d1 ++ renderPattern pat t1 c1 = d2 ++ renderPattern pat t2 c2 →
      PatToken.typePlaceholder ∈ pat → t1 = t2 := by
  intro pat
  induction pat with
  | nil =>
    intro d1 d2 t1 t2 c1 c2 _ _ _ hmem
    cases hmem
  | cons tok rest ih =>
    intro d1 d2 t1 t2 c1 c2 hd1 hd2 h hmem
    rw [renderPattern_cons, renderPattern_cons] at h
    cases tok with
    | lit s =>
      have hmem' : PatToken.typePlaceholder ∈ rest := by
        rcases List.mem_cons.mp hmem with h' | h'
        · cases h'
        · exact h'
      simp only [renderToken] at h
      by_cases hs : ∀ ch ∈ s, ch.isDigit = true
      · have h' : (d1 ++ s) ++ renderPattern rest t1 c1 =
            (d2 ++ s) ++ renderPattern rest t2 c2 := by
          rw [List.append_assoc, List.append_assoc]
          exact h
        refine ih (d1 ++ s) (d2 ++ s) t1 t2 c1 c2 ?_ ?_ h' hmem'
        · intro ch hch
          rcases List.mem_append.mp hch with h'' | h''
          · exact hd1 ch h''
          · exact hs ch h''
        · intro ch hch
          rcases List.mem_append.mp hch with h'' | h''
          · exact hd2 ch h''
          · exact hs ch h''
      · -- the literal has a first non-digit character
        have hsplit : s.takeWhile (fun c => c.isDigit) ++
            s.dropWhile (fun c => c.isDigit) = s :=
          List.takeWhile_append_dropWhile _ _
        have hdne : s.dropWhile (fun c => c.isDigit) ≠ [] := by
          intro hnil
          apply hs
          intro ch hch
          have : ch ∈ s.takeWhile (fun c => c.isDigit) := by
            rw [← hsplit] at hch
            rcases List.mem_append.mp hch with h'' | h''
            · exact h''
            · rw [hnil] at h''
              cases h''
          exact List.mem_takeWhile_imp this
        obtain ⟨ch0, s', hs_eq⟩ : ∃ ch0 s',
            s.dropWhile (fun c => c.isDigit) = ch0 :: s' := by
          cases hsd : s.dropWhile (fun c => c.isDigit) with
          | nil => exact absurd hsd hdne
          | cons a l => exact ⟨a, l, rfl⟩
        have hch0 : ch0.isDigit = false := dropWhile_head_false s ch0 s' hs_eq
        have hsd_digits : ∀ ch ∈ s.takeWhile (fun c => c.isDigit), ch.isDigit = true :=
          fun ch hch => List.mem_takeWhile_imp hch
        have hform : ∀ (d : List Char) (R : List Char), d ++ (s ++ R) =
            (d ++ s.takeWhile (fun c => c.isDigit)) ++ (ch0 :: (s' ++ R)) := by
          intro d R
          conv_lhs =>
            rw [← List.takeWhile_append_dropWhile (fun c => c.isDigit) s, hs_eq]
          simp [List.append_assoc]
        have hdpl : digitPrefixLen (d1 ++ (s ++ renderPattern rest t1 c1)) =
            d1.length + (s.takeWhile (fun c => c.isDigit)).length := by
          rw [hform d1 _]
          rw [dpl_append_all _ _ (by
            intro ch hch
            rcases List.mem_append.mp hch with h'' | h''
            · exact hd1 ch h''
            · exact hsd_digits ch h'')]
          rw [dpl_cons_not ch0 _ hch0]
          simp
        have hdpl2 : digitPrefixLen (d2 ++ (s ++ renderPattern rest t2 c2)) =
            d2.length + (s.takeWhile (fun c => c.isDigit)).length := by
          rw [hform d2 _]
          rw [dpl_append_all _ _ (by
            intro ch hch
            rcases List.mem_append.mp hch with h'' | h''
            · exact hd2 ch h''
            · exact hsd_digits ch h'')]
          rw [dpl_cons_not ch0 _ hch0]
          simp
        have hlen : d1.length = d2.length := by
          have := congrArg digitPrefixLen h
          rw [hdpl, hdpl2] at this
          omega
        rcases List.append_inj h hlen with ⟨hdeq, hrest⟩
        have hR := List.append_cancel_left hrest
        exact ih [] [] t1 t2 c1 c2 (by intro ch hch; cases hch)
          (by intro ch hch; cases hch) (by simpa using hR) hmem'
    | typePlaceholder =>
      obtain ⟨h1, tl1, hv1, hnd1⟩ := typeValue_cons t1
      obtain ⟨h2c, tl2, hv2, hnd2⟩ := typeValue_cons t2
      simp only [renderToken] at h
      have hdpl : digitPrefixLen (d1 ++ (t1.value ++ renderPattern rest t1 c1)) =
          d1.length := by
        rw [hv1]
        rw [dpl_append_all _ _ hd1]
        rw [List.cons_append, dpl_cons_not _ _ hnd1]
        omega
      have hdpl2 : digitPrefixLen (d2 ++ (t2.value ++ renderPattern rest t2 c2)) =
          d2.length := by
        rw [hv2]
        rw [dpl_append_all _ _ hd2]
        rw [List.cons_append, dpl_cons_not _ _ hnd2]
        omega
      have hlen : d1.length = d2.length := by
        have := congrArg digitPrefixLen h
        rw [hdpl, hdpl2] at this
        omega
      rcases List.append_inj h hlen with ⟨_, hrest⟩
      rw [hv1, hv2, List.cons_append, List.cons_append] at hrest
      injection hrest with hheads _
      exact typeValue_head_inj t1 t2 h1 h2c tl1 tl2 hv1 hv2 hheads
    | counterPlaceholder =>
      have hmem' : PatToken.typePlaceholder ∈ rest := by
        rcases List.mem_cons.mp hmem with h' | h'
        · cases h'
        · exact h'
      simp only [renderToken] at h
      have h' : (d1 ++ decRepr c1) ++ renderPattern rest t1 c1 =
          (d2 ++ decRepr c2) ++ renderPattern rest t2 c2 := by
        rw [List.append_assoc, List.append_assoc]
        exact h
      refine ih (d1 ++ decRepr c1) (d2 ++ decRepr c2) t1 t2 c1 c2 ?_ ?_ h' hmem'
      · intro ch hch
        rcases List.mem_append.mp hch with h'' | h''
        · exact hd1 ch h''
        · exact decRepr_all_digits c1 ch h''
      · intro ch hch
        rcases List.mem_append.mp hch with h'' | h''
        · exact hd2 ch h''
        · exact decRepr_all_digits c2 ch h''

/-- Rendering is injective on (kind, counter) pairs whenever the pattern
contains both placeholders. -/
theorem renderPattern_inj (pat : List PatToken) (t1 t2 : ElementType) (c1 c2 : ℕ)
    (hT : PatToken.typePlaceholder ∈ pat) (hC : PatToken.counterPlaceholder ∈ pat)
    (h : renderPattern pat t1 c1 = renderPattern pat t2 c2) : t1 = t2 ∧ c1 = c2 := by
  have ht : t1 = t2 := renderPattern_type_recover pat [] [] t1 t2 c1 c2
    (by intro ch hch; cases hch) (by intro ch hch; cases hch) (by simpa using h) hT
  subst ht
  exact ⟨rfl, renderPattern_counter_inj pat t1 c1 c2 hC h⟩

/-! ### Dictionary lemmas for sequence assignment -/

theorem insertReplace_keys_mem (d : List (ℕ × Element)) (k : ℕ) (v : Element) :
    ∀ a ∈ (insertReplace d k v).map Prod.fst, a ∈ d.map Prod.fst ∨ a = k := by
  induction d with
  | nil =>
    intro a ha
    right
    simpa [insertReplace] using ha
  | cons p rest ih =>
    intro a ha
    obtain ⟨k', v'⟩ := p
    unfold insertReplace at ha
    by_cases hk : k' = k
    · rw [if_pos hk] at ha
      rcases List.mem_map.mp ha with ⟨q, hq, hfst⟩
      rcases List.mem_cons.mp hq with rfl | hq'
      · exact Or.inr hfst.symm
      · exact Or.inl (List.mem_map.mpr ⟨q, List.mem_cons_of_mem _ hq', hfst⟩)
    · rw [if_neg hk] at ha
      rcases List.mem_map.mp ha with ⟨q, hq, hfst⟩
      rcases List.mem_cons.mp hq with rfl | hq'
      · exact Or.inl (List.mem_map.mpr ⟨(k', v'), List.mem_cons_self _ _, hfst⟩)
      · rcases ih a (List.mem_map.mpr ⟨q, hq', hfst⟩) with h | h
        · rcases List.mem_map.mp h with ⟨q', hq'', hfst'⟩
          exact Or.inl (List.mem_map.mpr ⟨q', List.mem_cons_of_mem _ hq'', hfst'⟩)
        · exact Or.inr h

theorem insertReplace_keys_nodup (d : List (ℕ × Element)) (k : ℕ) (v : Element)
    (h : (d.map Prod.fst).Nodup) : ((insertReplace d k v).map Prod.fst).Nodup := by
  induction d with
  | nil => simp [insertReplace]
  | cons p rest ih =>
    obtain ⟨k', v'⟩ := p
    rw [List.map_cons, List.nodup_cons] at h
    unfold insertReplace
    by_cases hk : k' = k
    · rw [if_pos hk]
      rw [List.map_cons, List.nodup_cons]
      exact ⟨hk ▸ h.1, h.2⟩
    · rw [if_neg hk]
      rw [List.map_cons, List.nodup_cons]
      refine ⟨?_, ih h.2⟩
      intro hmem
      rcases insertReplace_keys_mem rest k v k' hmem with h' | h'
      · exact h.1 h'
      · exact hk h'

theorem insertReplace_mem (d : List (ℕ × Element)) (k : ℕ) (v : Element) :
    ∀ p ∈ insertReplace d k v, p ∈ d ∨ p = (k, v) := by
  induction d with
  | nil =>
    intro p hp
    exact Or.inr (by simpa [insertReplace] using hp)
  | cons q rest ih =>
    intro p hp
    obtain ⟨k', v'⟩ := q
    unfold insertReplace at hp
    by_cases hk : k' = k
    · rw [if_pos hk] at hp
      rcases List.mem_cons.mp hp with rfl | hp'
      · exact Or.inr rfl
      · exact Or.inl (List.mem_cons_of_mem _ hp')
    · rw [if_neg hk] at hp
      rcases List.mem_cons.mp hp with rfl | hp'
      · exact Or.inl (List.mem_cons_self _ _)
      · rcases ih p hp' with h | h
        · exact Or.inl (List.mem_cons_of_mem _ h)
        · exact Or.inr h

theorem dictLookup_insertReplace_self (d : List (ℕ × Element)) (k : ℕ) (v : Element) :
    dictLookup (insertReplace d k v) k = some v := by
  induction d with
  | nil => simp [insertReplace, dictLookup, List.find?]
  | cons q rest ih =>
    obtain ⟨k', v'⟩ := q
    unfold insertReplace
    by_cases hk : k' = k
    · rw [if_pos hk]
      simp [dictLookup, List.find?]
    · rw [if_neg hk]
      unfold dictLookup at ih ⊢
      rw [List.find?_cons]
      have : ((k', v').1 == k) = false := by
        simp only [beq_eq_false_iff_ne, ne_eq]
        exact hk
      rw [this]
      exact ih

theorem dictLookup_insertReplace_other (d : List (ℕ × Element)) (k : ℕ) (v : Element)
    (k' : ℕ) (h : k' ≠ k) :
    dictLookup (insertReplace d k v) k' = dictLookup d k' := by
  induction d with
  | nil =>
    have hb : ((k, v).1 == k') = false := by
      simp only [beq_eq_false_iff_ne, ne_eq]
      exact fun hh => h hh.symm
    simp [insertReplace, dictLookup, List.find?, hb]
  | cons q rest ih =>
    obtain ⟨k0, v0⟩ := q
    unfold insertReplace
    by_cases hk : k0 = k
    · rw [if_pos hk]
      unfold dictLookup
      rw [List.find?_cons, List.find?_cons]
      have h1 : ((k, v).1 == k') = false := by
        simp only [beq_eq_false_iff_ne, ne_eq]
        exact fun hh => h hh.symm
      have h2 : ((k0, v0).1 == k') = false := by
        simp only [beq_eq_false_iff_ne, ne_eq]
        intro hh
        exact h (hh.symm.trans hk)
      rw [h1, h2]
    · rw [if_neg hk]
      unfold dictLookup at ih ⊢
      rw [List.find?_cons, List.find?_cons]
      by_cases hq : ((k0, v0).1 == k') = true
      · rw [hq]
      · rw [Bool.not_eq_true] at hq
        rw [hq]
        exact ih

/-- Case description of one dict-building step. -/
theorem dictStep_cases (assoc : List (ℕ × Caption))
    (acc : List (ℕ × Element) × List Element) (e : Element) :
    (∃ n, hasCapNum assoc n e = true ∧
      dictStep assoc acc e = (insertReplace acc.1 n e, acc.2)) ∨
    ((∀ n, hasCapNum assoc n e = false) ∧
      dictStep assoc acc e = (acc.1, acc.2 ++ [e])) := by
  cases hl : lookupAssoc assoc e.element_id with
  | none =>
    refine Or.inr ⟨fun n => ?_, ?_⟩
    · unfold hasCapNum
      rw [hl]
    · unfold dictStep
      rw [hl]
  | some cap =>
    have hred : dictStep assoc acc e = (match cap.parsed_number with
        | some n => (insertReplace acc.1 n e, acc.2)
        | none => (acc.1, acc.2 ++ [e])) := by
      unfold dictStep
      rw [hl]
    have hcap : ∀ n, hasCapNum assoc n e = decide (cap.parsed_number = some n) := by
      intro n
      unfold hasCapNum
      rw [hl]
    cases hp : cap.parsed_number with
    | none =>
      refine Or.inr ⟨fun n => ?_, ?_⟩
      · rw [hcap n, hp]
        simp
      · rw [hred, hp]
    | some n =>
      refine Or.inl ⟨n, ?_, ?_⟩
      · rw [hcap n, hp]
        simp
      · rw [hred, hp]

theorem dictFold_keys_nodup (assoc : List (ℕ × Caption)) :
    ∀ (l : List Element) (acc : List (ℕ × Element) × List Element),
      (acc.1.map Prod.fst).Nodup →
      (((l.foldl (dictStep assoc) acc).1).map Prod.fst).Nodup := by
  intro l
  induction l with
  | nil => intro acc h; exact h
  | cons e rest ih =>
    intro acc h
    rw [List.foldl_cons]
    apply ih
    rcases dictStep_cases assoc acc e with ⟨n, _, heq⟩ | ⟨_, heq⟩
    · rw [heq]
      exact insertReplace_keys_nodup acc.1 n e h
    · rw [heq]
      exact h

theorem dictFold_mem (assoc : List (ℕ × Caption)) :
    ∀ (l : List Element) (acc : List (ℕ × Element) × List Element),
      ∀ p ∈ (l.foldl (dictStep assoc) acc).1,
        p ∈ acc.1 ∨ (p.2 ∈ l ∧ hasCapNum assoc p.1 p.2 = true) := by
  intro l
  induction l with
  | nil => intro acc p hp; exact Or.inl hp
  | cons e rest ih =>
    intro acc p hp
    rw [List.foldl_cons] at hp
    rcases ih (dictStep assoc acc e) p hp with h | ⟨hmem, hnum⟩
    · rcases dictStep_cases assoc acc e with ⟨n, hn, heq⟩ | ⟨_, heq⟩
      · rw [heq] at h
        rcases insertReplace_mem acc.1 n e p h with h' | h'
        · exact Or.inl h'
        · refine Or.inr ⟨?_, ?_⟩
          · rw [h']
            exact List.mem_cons_self _ _
          · rw [h']
            exact hn
      · rw [heq] at h
        exact Or.inl h
    · exact Or.inr ⟨List.mem_cons_of_mem _ hmem, hnum⟩

theorem dictFold_without_mem (assoc : List (ℕ × Caption)) :
    ∀ (l : List Element) (acc : List (ℕ × Element) × List Element),
      ∀ x ∈ (l.foldl (dictStep assoc) acc).2, x ∈ acc.2 ∨ x ∈ l := by
  intro l
  induction l with
  | nil => intro acc x hx; exact Or.inl hx
  | cons e rest ih =>
    intro acc x hx
    rw [List.foldl_cons] at hx
    rcases ih (dictStep assoc acc e) x hx with h | h
    · rcases dictStep_cases assoc acc e with ⟨n, _, heq⟩ | ⟨_, heq⟩
      · rw [heq] at h
        exact Or.inl h
      · rw [heq] at h
        rcases List.mem_append.mp h with h' | h'
        · exact Or.inl h'
        · have hxe : x = e := by simpa using h'
          rw [hxe]
          exact Or.inr (List.mem_cons_self _ _)
    · exact Or.inr (List.mem_cons_of_mem _ h)

theorem getLast?_cons_of_ne_nil {α : Type} (x : α) (xs : List α) (h : xs ≠ []) :
    (x :: xs).getLast? = xs.getLast? := by
  cases xs with
  | nil => exact absurd rfl h
  | cons y ys => exact List.getLast?_cons_cons

theorem dictFold_lookup (assoc : List (ℕ × Caption)) (n : ℕ) :
    ∀ (l : List Element) (acc : List (ℕ × Element) × List Element),
      dictLookup ((l.foldl (dictStep assoc) acc).1) n =
        match (l.filter (hasCapNum assoc n)).getLast? with
        | some e => some e
        | none => dictLookup acc.1 n := by
  intro l
  induction l with
  | nil => intro acc; rfl
  | cons e rest ih =>
    intro acc
    rw [List.foldl_cons, ih (dictStep assoc acc e)]
    rw [List.filter_cons]
    by_cases hnum : hasCapNum assoc n e = true
    · rw [if_pos hnum]
      cases hlast : (rest.filter (hasCapNum assoc n)).getLast? with
      | some e' =>
        have hne : rest.filter (hasCapNum assoc n) ≠ [] := by
          intro hnil
          rw [hnil] at hlast
          cases hlast
        rw [getLast?_cons_of_ne_nil e _ hne, hlast]
      | none =>
        have hnil : rest.filter (hasCapNum assoc n) = [] := by
          cases hfil : rest.filter (hasCapNum assoc n) with
          | nil => rfl
          | cons a l' =>
            rw [hfil] at hlast
            exfalso
            cases l' with
            | nil => cases hlast
            | cons b l'' =>
              rw [List.getLast?_cons_cons] at hlast
              have := List.getLast?_isSome (l := b :: l'')
              rw [hlast] at this
              simp at this
        rw [hnil]
        simp only [List.getLast?_singleton]
        rcases dictStep_cases assoc acc e with ⟨n', hn', heq⟩ | ⟨hall, _⟩
        · have hnn' : n' = n := by
            unfold hasCapNum at hnum hn'
            cases hl : lookupAssoc assoc e.element_id with
            | none => rw [hl] at hnum; cases hnum
            | some cap =>
              rw [hl] at hnum hn'
              have h1 : cap.parsed_number = some n := by simpa using hnum
              have h2 : cap.parsed_number = some n' := by simpa using hn'
              rw [h1] at h2
              injection h2 with h3
              exact h3.symm
          rw [heq]
          rw [hnn']
          exact dictLookup_insertReplace_self acc.1 n e
        · rw [hall n] at hnum
          cases hnum
    · rw [Bool.not_eq_true] at hnum
      rw [if_neg (by rw [hnum]; exact Bool.false_ne_true)]
      cases hlast : (rest.filter (hasCapNum assoc n)).getLast? with
      | some e' => rfl
      | none =>
        rcases dictStep_cases assoc acc e with ⟨n', hn', heq⟩ | ⟨_, heq⟩
        · have hnn' : n' ≠ n := by
            intro hh
            rw [hh] at hn'
            rw [hn'] at hnum
            cases hnum
          rw [heq]
          exact dictLookup_insertReplace_other acc.1 n' e n
            (fun hh => hnn' hh.symm)
        · rw [heq]

/-! ### Sequence assignment: per-kind facts -/

theorem enumFrom_fst_ge {α : Type} : ∀ (l : List α) (s : ℕ), ∀ p ∈ enumFrom s l, s ≤ p.1 := by
  intro l
  induction l with
  | nil => intro s p hp; cases hp
  | cons a rest ih =>
    intro s p hp
    rcases List.mem_cons.mp hp with rfl | hp'
    · exact le_refl s
    · exact le_trans (Nat.le_succ s) (ih (s + 1) p hp')

theorem enumFrom_pairwise {α : Type} : ∀ (l : List α) (s : ℕ),
    (enumFrom s l).Pairwise (fun p q => p.1 < q.1) := by
  intro l
  induction l with
  | nil => intro s; exact List.Pairwise.nil
  | cons a rest ih =>
    intro s
    rw [enumFrom, List.pairwise_cons]
    refine ⟨?_, ih (s + 1)⟩
    intro p hp
    exact lt_of_lt_of_le (Nat.lt_succ_self s) (enumFrom_fst_ge rest (s + 1) p hp)

theorem enumFrom_snd_mem {α : Type} : ∀ (l : List α) (s : ℕ), ∀ p ∈ enumFrom s l,
    p.2 ∈ l := by
  intro l
  induction l with
  | nil => intro s p hp; cases hp
  | cons a rest ih =>
    intro s p hp
    rcases List.mem_cons.mp hp with rfl | hp'
    · exact List.mem_cons_self _ _
    · exact List.mem_cons_of_mem _ (ih (s + 1) p hp')

/-- Every produced element records its own filename as the pattern
rendered at its sequence number, and inherits its kind from some input
element. -/
theorem assignForType_mem_spec (pat : List PatToken) (assoc : List (ℕ × Caption))
    (t : ElementType) (l : List Element) :
    ∀ x ∈ assignForType pat assoc t l,
      x.output_filename = renderPattern pat t x.sequence_number ∧
        ∃ src ∈ l, x.element_type = src.element_type := by
  intro x hx
  have hperm := List.perm_insertionSort posRel l
  unfold assignForType at hx
  by_cases hemp : (buildCaptionDict assoc (sortByPosition l)).1.isEmpty
  · rw [if_pos hemp] at hx
    rcases List.mem_map.mp hx with ⟨p, hp, hemb⟩
    refine ⟨by rw [← hemb]; rfl, ?_⟩
    refine ⟨p.2, hperm.mem_iff.mp (enumFrom_snd_mem _ 1 p hp), by rw [← hemb]; rfl⟩
  · rw [if_neg hemp] at hx
    simp only [] at hx
    rcases List.mem_append.mp hx with hx' | hx'
    · rcases List.mem_map.mp hx' with ⟨p, hp, hemb⟩
      have hpd : p ∈ (buildCaptionDict assoc (sortByPosition l)).1 :=
        (List.perm_insertionSort keyRel _).mem_iff.mp hp
      rcases dictFold_mem assoc (sortByPosition l) ([], []) p hpd with h | ⟨hmem, _⟩
      · cases h
      · exact ⟨by rw [← hemb]; rfl, ⟨p.2, hperm.mem_iff.mp hmem, by rw [← hemb]; rfl⟩⟩
    · rcases List.mem_map.mp hx' with ⟨p, hp, hemb⟩
      have hpw : p.2 ∈ (buildCaptionDict assoc (sortByPosition l)).2 :=
        enumFrom_snd_mem _ _ p hp
      rcases dictFold_without_mem assoc (sortByPosition l) ([], []) p.2 hpw with h | h
      · cases h
      · exact ⟨by rw [← hemb]; rfl, ⟨p.2, hperm.mem_iff.mp h, by rw [← hemb]; rfl⟩⟩

/-- The sequence numbers produced within one kind are pairwise distinct. -/
theorem assignForType_seq_nodup (pat : List PatToken) (assoc : List (ℕ × Caption))
    (t : ElementType) (l : List Element) :
    ((assignForType pat assoc t l).map (fun x => x.sequence_number)).Nodup := by
  unfold assignForType
  by_cases hemp : (buildCaptionDict assoc (sortByPosition l)).1.isEmpty
  · rw [if_pos hemp]
    rw [List.map_map]
    have : ((enumFrom 1 (sortByPosition l)).map
        (fun p => ((fun p : ℕ × Element =>
          createElementEmb p.2.element_type p.2.bounding_box p.2.page_number p.1
            p.2.confidence_score (renderPattern pat t p.1)) p).sequence_number)) =
        (enumFrom 1 (sortByPosition l)).map Prod.fst := by
      apply List.map_congr_left
      intro p _
      rfl
    rw [Function.comp_def, this]
    have hpw := enumFrom_pairwise (sortByPosition l) 1
    exact (List.pairwise_map.mpr (hpw.imp (fun h => Nat.ne_of_lt h)))
  · rw [if_neg hemp]
    rw [List.map_append, List.map_map, List.map_map]
    have heq1 : (List.map
        ((fun x : Element => x.sequence_number) ∘ fun p : ℕ × Element =>
          createElementEmb p.2.element_type p.2.bounding_box p.2.page_number p.1
            p.2.confidence_score (renderPattern pat t p.1))
        (List.insertionSort keyRel (buildCaptionDict assoc (sortByPosition l)).1)) =
        (List.insertionSort keyRel
          (buildCaptionDict assoc (sortByPosition l)).1).map Prod.fst := by
      apply List.map_congr_left
      intro p _
      rfl
    have heq2 : (List.map
        ((fun x : Element => x.sequence_number) ∘ fun p : ℕ × Element =>
          createElementEmb p.2.element_type p.2.bounding_box p.2.page_number p.1
            p.2.confidence_score (renderPattern pat t p.1))
        (enumFrom
          (((buildCaptionDict assoc (sortByPosition l)).1.map Prod.fst).foldl max 0 + 1)
          (buildCaptionDict assoc (sortByPosition l)).2)) =
        (enumFrom
          (((buildCaptionDict assoc (sortByPosition l)).1.map Prod.fst).foldl max 0 + 1)
          (buildCaptionDict assoc (sortByPosition l)).2).map Prod.fst := by
      apply List.map_congr_left
      intro p _
      rfl
    rw [heq1, heq2]
    rw [List.nodup_append]
    refine ⟨?_, ?_, ?_⟩
    · have hnd : ((buildCaptionDict assoc (sortByPosition l)).1.map Prod.fst).Nodup :=
        dictFold_keys_nodup assoc (sortByPosition l) ([], []) List.nodup_nil
      exact ((List.perm_insertionSort keyRel _).map Prod.fst).nodup_iff.mpr hnd
    · have hpw := enumFrom_pairwise
        ((buildCaptionDict assoc (sortByPosition l)).2)
        (((buildCaptionDict assoc (sortByPosition l)).1.map Prod.fst).foldl max 0 + 1)
      exact List.pairwise_map.mpr (hpw.imp (fun h => Nat.ne_of_lt h))
    · intro a ha hb
      rcases List.mem_map.mp ha with ⟨p, hp, hfst⟩
      rcases List.mem_map.mp hb with ⟨q, hq, hfst'⟩
      have hpd : p ∈ (buildCaptionDict assoc (sortByPosition l)).1 :=
        (List.perm_insertionSort keyRel _).mem_iff.mp hp
      have hle : p.1 ≤ ((buildCaptionDict assoc (sortByPosition l)).1.map
          Prod.fst).foldl max 0 :=
        foldl_max_mem_le _ 0 (List.mem_map.mpr ⟨p, hpd, rfl⟩)
      have hge := enumFrom_fst_ge _ _ q hq
      rw [hfst] at hle
      rw [hfst'] at hge
      omega

/-- All elements produced for kind `t` carry kind `t` when the inputs
do. -/
theorem assignForType_type (pat : List PatToken) (assoc : List (ℕ × Caption))
    (t : ElementType) (l : List Element) (hall : ∀ e ∈ l, e.element_type = t) :
    ∀ x ∈ assignForType pat assoc t l, x.element_type = t := by
  intro x hx
  rcases (assignForType_mem_spec pat assoc t l x hx).2 with ⟨src, hsrc, htype⟩
  rw [htype]
  exact hall src hsrc

/-- Filtering the concatenated per-kind outputs by kind selects exactly
that kind's group. -/
theorem filter_flatMap_groups (g : ElementType → List Element) :
    ∀ (types : List ElementType) (t : ElementType), types.Nodup →
      (∀ t' ∈ types, ∀ x ∈ g t', x.element_type = t') →
      (types.flatMap g).filter (fun x => decide (x.element_type = t)) =
        if t ∈ types then g t else [] := by
  intro types
  induction types with
  | nil =>
    intro t _ _
    simp
  | cons t0 ts ih =>
    intro t hnd hall
    rw [List.flatMap_cons, List.filter_append]
    have hnd' := (List.nodup_cons.mp hnd).2
    have ht0 := (List.nodup_cons.mp hnd).1
    have hall' : ∀ t' ∈ ts, ∀ x ∈ g t', x.element_type = t' :=
      fun t' ht' => hall t' (List.mem_cons_of_mem _ ht')
    by_cases heq : t = t0
    · subst heq
    -- head group passes whole, tail contributes nothing
      have h1 : (g t).filter (fun x => decide (x.element_type = t)) = g t := by
        rw [List.filter_eq_self]
        intro x hx
        simp [hall t (List.mem_cons_self _ _) x hx]
      rw [h1, ih t hnd' hall', if_neg ht0, if_pos (List.mem_cons_self _ _)]
      simp
    · have h1 : (g t0).filter (fun x => decide (x.element_type = t)) = [] := by
        rw [List.filter_eq_nil_iff]
        intro x hx
        rw [hall t0 (List.mem_cons_self _ _) x hx]
        simp
        exact fun hh => heq hh.symm
      rw [h1, ih t hnd' hall']
      have : (t ∈ t0 :: ts) = (t ∈ ts) := by
        simp [List.mem_cons, heq]
      rw [List.nil_append]
      by_cases hmem : t ∈ ts
      · rw [if_pos hmem, if_pos (List.mem_cons_of_mem _ hmem)]
      · rw [if_neg hmem, if_neg (by
          intro hc
          rcases List.mem_cons.mp hc with h' | h'
          · exact heq h'
          · exact hmem h')]

/-- C2: for every element list and naming pattern containing both the
`{type}` and `{counter}` placeholders, `_assign_sequence_numbers_and_filenames`
produces pairwise distinct sequence numbers within each kind and pairwise
distinct output filenames across the whole result. -/
theorem claim_C2 (elements : List Element) (assoc : List (ℕ × Caption))
    (pat : List PatToken) (hT : PatToken.typePlaceholder ∈ pat)
    (hC : PatToken.counterPlaceholder ∈ pat) :
    (∀ t : ElementType,
      (((assignSequenceNumbersAndFilenames elements pat assoc).filter
          (fun x => decide (x.element_type = t))).map
        (fun x => x.sequence_number)).Nodup) ∧
    ((assignSequenceNumbersAndFilenames elements pat assoc).map
      (fun x => x.output_filename)).Nodup := by
  have hgroups : ∀ t' ∈ orderedKeys (fun e : Element => e.element_type) elements,
      ∀ x ∈ assignForType pat assoc t'
        (elements.filter (fun e => decide (e.element_type = t'))),
        x.element_type = t' := by
    intro t' _ x hx
    refine assignForType_type pat assoc t' _ ?_ x hx
    intro e he
    have := (List.mem_filter.mp he).2
    simpa using this
  constructor
  · intro t
    unfold assignSequenceNumbersAndFilenames
    rw [filter_flatMap_groups _ _ t (orderedKeys_nodup _ _) hgroups]
    by_cases hmem : t ∈ orderedKeys (fun e : Element => e.element_type) elements
    · rw [if_pos hmem]
      exact assignForType_seq_nodup pat assoc t _
    · rw [if_neg hmem]
      exact List.nodup_nil
  · unfold assignSequenceNumbersAndFilenames
    have main : ∀ types : List ElementType, types.Nodup →
        (∀ t' ∈ types, ∀ x ∈ assignForType pat assoc t'
          (elements.filter (fun e => decide (e.element_type = t'))),
          x.element_type = t') →
        ((types.flatMap (fun t => assignForType pat assoc t
          (elements.filter (fun e => decide (e.element_type = t))))).map
            (fun x => x.output_filename)).Nodup := by
      intro types
      induction types with
      | nil =>
        intro _ _
        simp
      | cons t0 ts ih =>
        intro hnd hall
        rw [List.flatMap_cons, List.map_append, List.nodup_append]
        have hnd' := (List.nodup_cons.mp hnd).2
        have ht0 := (List.nodup_cons.mp hnd).1
        refine ⟨?_, ih hnd' (fun t' ht' => hall t' (List.mem_cons_of_mem _ ht')), ?_⟩
        · have hmapeq : (assignForType pat assoc t0
              (elements.filter (fun e => decide (e.element_type = t0)))).map
              (fun x => x.output_filename) =
              ((assignForType pat assoc t0
                (elements.filter (fun e => decide (e.element_type = t0)))).map
                (fun x => x.sequence_number)).map (renderPattern pat t0) := by
            rw [List.map_map]
            apply List.map_congr_left
            intro x hx
            exact (assignForType_mem_spec pat assoc t0 _ x hx).1
          rw [hmapeq]
          refine (assignForType_seq_nodup pat assoc t0 _).map ?_
          intro c1 c2 h
          exact renderPattern_counter_inj pat t0 c1 c2 hC h
        · intro a ha hb
          rcases List.mem_map.mp ha with ⟨x, hx, hax⟩
          rcases List.mem_map.mp hb with ⟨y, hy, hay⟩
          rcases List.mem_flatMap.mp hy with ⟨t', ht', hyt⟩
          have hx1 := (assignForType_mem_spec pat assoc t0 _ x hx).1
          have hy1 := (assignForType_mem_spec pat assoc t' _ y hyt).1
          have hren : renderPattern pat t0 x.sequence_number =
              renderPattern pat t' y.sequence_number := by
            rw [← hx1, ← hy1, hax, hay]
          have := (renderPattern_inj pat t0 t' x.sequence_number y.sequence_number
            hT hC hren).1
          exact ht0 (this ▸ ht')
    exact main _ (orderedKeys_nodup _ _) hgroups

/-! ### C10: duplicate caption numbers collapse to the last element -/

theorem mem_of_getLast?_eq {α : Type} :
    ∀ (l : List α) (a : α), l.getLast? = some a → a ∈ l := by
  intro l
  induction l with
  | nil => intro a h; cases h
  | cons x xs ih =>
    intro a h
    cases xs with
    | nil =>
      rw [List.getLast?_singleton] at h
      injection h with h'
      rw [h']
      exact List.mem_cons_self _ _
    | cons y ys =>
      rw [List.getLast?_cons_cons] at h
      exact List.mem_cons_of_mem _ (ih a h)

theorem filter_key_singleton :
    ∀ (items : List (ℕ × Element)) (n : ℕ) (e : Element),
      ((items.map Prod.fst).Nodup) → (n, e) ∈ items →
      items.filter (fun p => decide (p.1 = n)) = [(n, e)] := by
  intro items
  induction items with
  | nil => intro n e _ hmem; cases hmem
  | cons q rest ih =>
    intro n e hnd hmem
    obtain ⟨k, v⟩ := q
    rw [List.map_cons, List.nodup_cons] at hnd
    rcases List.mem_cons.mp hmem with heq | hmem'
    · injection heq with h1 h2
      subst h1
      subst h2
      rw [List.filter_cons]
      rw [if_pos (by simp)]
      have hrest : rest.filter (fun p => decide (p.1 = n)) = [] := by
        rw [List.filter_eq_nil_iff]
        intro p hp
        simp only [decide_eq_true_eq]
        intro hpk
        exact hnd.1 (List.mem_map.mpr ⟨p, hp, hpk⟩)
      rw [hrest]
    · have hk : k ≠ n := by
        intro hkn
        subst hkn
        exact hnd.1 (List.mem_map.mpr ⟨(k, e), hmem', rfl⟩)
      rw [List.filter_cons]
      rw [if_neg (by simpa using hk)]
      exact ih n e hnd.2 hmem'

theorem dictLookup_mem (d : List (ℕ × Element)) (n : ℕ) (e : Element)
    (h : dictLookup d n = some e) : (n, e) ∈ d := by
  unfold dictLookup at h
  cases hf : d.find? (fun p => p.1 == n) with
  | none =>
    rw [hf] at h
    cases h
  | some p =>
    rw [hf] at h
    have hp1 := List.find?_some hf
    have hp2 : p.2 = e := by
      injection h
    have hmem := List.mem_of_find?_eq_some hf
    have hpne : p = (n, e) := by
      have h1 : p.1 = n := by simpa using hp1
      cases p
      simp_all
    rw [← hpne]
    exact hmem

theorem dictLookup_ne_nil (d : List (ℕ × Element)) (n : ℕ) (e : Element)
    (h : dictLookup d n = some e) : d.isEmpty = false := by
  cases d with
  | nil => cases h
  | cons q rest => rfl

/-- C10: when several same-kind elements are associated with captions
carrying the same parsed number `n`, exactly one element with sequence
number `n` survives sequencing — the one built from the last element (in
`(page_number, y, x)` order) carrying `n`; consequently the step can
return fewer elements than it was given (witnessed concretely). -/
theorem claim_C10 (elements : List Element) (pat : List PatToken)
    (assoc : List (ℕ × Caption)) (t : ElementType) (n : ℕ) (eL : Element)
    (hlast : ((sortByPosition (elements.filter
        (fun e => decide (e.element_type = t)))).filter
      (hasCapNum assoc n)).getLast? = some eL) :
    (assignSequenceNumbersAndFilenames elements pat assoc).filter
        (fun x => decide (x.element_type = t ∧ x.sequence_number = n)) =
      [createElementEmb eL.element_type eL.bounding_box eL.page_number n
        eL.confidence_score (renderPattern pat t n)] ∧
    (∃ (els : List Element) (assoc2 : List (ℕ × Caption)) (pat2 : List PatToken),
      (assignSequenceNumbersAndFilenames els pat2 assoc2).length < els.length) := by
  constructor
  · -- the dict maps n to the last carrier
    have hdict : dictLookup ((buildCaptionDict assoc (sortByPosition
        (elements.filter (fun e => decide (e.element_type = t))))).1) n = some eL := by
      unfold buildCaptionDict
      rw [dictFold_lookup assoc n _ ([], [])]
      rw [hlast]
    have hEL_sorted : eL ∈ sortByPosition (elements.filter
        (fun e => decide (e.element_type = t))) := by
      have := mem_of_getLast?_eq _ eL hlast
      exact (List.mem_filter.mp this).1
    have hEL_f : eL ∈ elements.filter (fun e => decide (e.element_type = t)) :=
      (List.perm_insertionSort posRel _).mem_iff.mp hEL_sorted
    have hEL_type : eL.element_type = t := by
      have := (List.mem_filter.mp hEL_f).2
      simpa using this
    have htmem : t ∈ orderedKeys (fun e : Element => e.element_type) elements := by
      have h0 := orderedKeys_complete (fun e : Element => e.element_type) elements eL
        (List.mem_filter.mp hEL_f).1
      have h1 : eL.element_type ∈ orderedKeys (fun e : Element => e.element_type)
          elements := h0
      rwa [hEL_type] at h1
    have hgroups : ∀ t' ∈ orderedKeys (fun e : Element => e.element_type) elements,
        ∀ x ∈ assignForType pat assoc t'
          (elements.filter (fun e => decide (e.element_type = t'))),
          x.element_type = t' := by
      intro t' _ x hx
      refine assignForType_type pat assoc t' _ ?_ x hx
      intro e he
      have := (List.mem_filter.mp he).2
      simpa using this
    -- split the double filter
    have hsplit : (assignSequenceNumbersAndFilenames elements pat assoc).filter
        (fun x => decide (x.element_type = t ∧ x.sequence_number = n)) =
        ((assignSequenceNumbersAndFilenames elements pat assoc).filter
          (fun x => decide (x.element_type = t))).filter
          (fun x => decide (x.sequence_number = n)) := by
      rw [List.filter_filter]
      apply List.filter_congr
      intro x _
      by_cases h1 : x.element_type = t
      · by_cases h2 : x.sequence_number = n
        · simp [h1, h2]
        · simp [h1, h2]
      · simp [h1]
    rw [hsplit]
    unfold assignSequenceNumbersAndFilenames
    rw [filter_flatMap_groups _ _ t (orderedKeys_nodup _ _) hgroups, if_pos htmem]
    -- evaluate the per-kind assignment
    unfold assignForType
    rw [if_neg (by
      rw [dictLookup_ne_nil _ n eL hdict]
      exact Bool.false_ne_true)]
    rw [List.filter_append]
    have hkeysnodup : (((buildCaptionDict assoc (sortByPosition
        (elements.filter (fun e => decide (e.element_type = t))))).1).map
        Prod.fst).Nodup :=
      dictFold_keys_nodup assoc _ ([], []) List.nodup_nil
    have hitems_nodup : ((List.insertionSort keyRel ((buildCaptionDict assoc
        (sortByPosition (elements.filter
          (fun e => decide (e.element_type = t))))).1)).map Prod.fst).Nodup :=
      ((List.perm_insertionSort keyRel _).map Prod.fst).nodup_iff.mpr hkeysnodup
    have hitem_mem : (n, eL) ∈ List.insertionSort keyRel ((buildCaptionDict assoc
        (sortByPosition (elements.filter
          (fun e => decide (e.element_type = t))))).1) :=
      (List.perm_insertionSort keyRel _).mem_iff.mpr (dictLookup_mem _ n eL hdict)
    have h1 : (List.map (fun p : ℕ × Element =>
        createElementEmb p.2.element_type p.2.bounding_box p.2.page_number p.1
          p.2.confidence_score (renderPattern pat t p.1))
        (List.insertionSort keyRel ((buildCaptionDict assoc (sortByPosition
          (elements.filter (fun e => decide (e.element_type = t))))).1))).filter
        (fun x => decide (x.sequence_number = n)) =
        [createElementEmb eL.element_type eL.bounding_box eL.page_number n
          eL.confidence_score (renderPattern pat t n)] := by
      rw [List.filter_map]
      have hfeq : (List.insertionSort keyRel ((buildCaptionDict assoc (sortByPosition
          (elements.filter (fun e => decide (e.element_type = t))))).1)).filter
          ((fun x : Element => decide (x.sequence_number = n)) ∘
            (fun p : ℕ × Element =>
              createElementEmb p.2.element_type p.2.bounding_box p.2.page_number p.1
                p.2.confidence_score (renderPattern pat t p.1))) =
          (List.insertionSort keyRel ((buildCaptionDict assoc (sortByPosition
            (elements.filter (fun e => decide (e.element_type = t))))).1)).filter
            (fun p => decide (p.1 = n)) := by
        apply List.filter_congr
        intro p _
        rfl
      rw [hfeq]
      rw [filter_key_singleton _ n eL hitems_nodup hitem_mem]
      rfl
    have h2 : (List.map (fun p : ℕ × Element =>
        createElementEmb p.2.element_type p.2.bounding_box p.2.page_number p.1
          p.2.confidence_score (renderPattern pat t p.1))
        (enumFrom ((((buildCaptionDict assoc (sortByPosition
          (elements.filter (fun e => decide (e.element_type = t))))).1).map
            Prod.fst).foldl max 0 + 1)
          ((buildCaptionDict assoc (sortByPosition
            (elements.filter (fun e => decide (e.element_type = t))))).2))).filter
        (fun x => decide (x.sequence_number = n)) = [] := by
      rw [List.filter_eq_nil_iff]
      intro x hx
      rcases List.mem_map.mp hx with ⟨p, hp, hemb⟩
      have hge := enumFrom_fst_ge _ _ p hp
      have hle : n ≤ (((buildCaptionDict assoc (sortByPosition
          (elements.filter (fun e => decide (e.element_type = t))))).1).map
          Prod.fst).foldl max 0 :=
        foldl_max_mem_le _ 0 (List.mem_map.mpr ⟨(n, eL), dictLookup_mem _ n eL hdict,
          rfl⟩)
      have hseq : x.sequence_number = p.1 := by
        rw [← hemb]
        rfl
      simp only [decide_eq_true_eq]
      omega
    rw [h1, h2, List.append_nil]
  · refine ⟨[⟨11, ElementType.figure, ⟨0, 0, 10, 10, 1, 0⟩, 1, 1, 1, []⟩,
      ⟨12, ElementType.figure, ⟨0, 20, 10, 10, 1, 0⟩, 1, 1, 1, []⟩],
      [(11, ⟨[], ⟨0, 35, 10, 5, 1, 0⟩, 1, ElementType.figure, some 1⟩),
        (12, ⟨[], ⟨0, 35, 10, 5, 1, 0⟩, 1, ElementType.figure, some 1⟩)],
      [PatToken.typePlaceholder, PatToken.counterPlaceholder], ?_⟩
    decide

/-! ### Witnesses: each hypothesis-bearing claim theorem applied at a
concrete input -/

theorem claim_C7_witness :
    (createMergedElementCore ⟨1, ElementType.figure, ⟨0, 0, 10, 10, 1, 0⟩, 1, 1, 1, []⟩
        [⟨2, ElementType.figure, ⟨5, 5, 10, 10, 1, 0⟩, 1, 1, 0, []⟩]).bounding_box.x ≤
      (0 : ℚ) ∧
    (0 : ℚ) ≤ (createMergedElementCore
        ⟨1, ElementType.figure, ⟨0, 0, 10, 10, 1, 0⟩, 1, 1, 1, []⟩
        [⟨2, ElementType.figure, ⟨5, 5, 10, 10, 1, 0⟩, 1, 1, 0, []⟩]).confidence_score := by
  have h := claim_C7
    [⟨1, ElementType.figure, ⟨0, 0, 10, 10, 1, 0⟩, 1, 1, 1, []⟩,
      ⟨2, ElementType.figure, ⟨5, 5, 10, 10, 1, 0⟩, 1, 1, 0, []⟩]
    (createMergedElementCore ⟨1, ElementType.figure, ⟨0, 0, 10, 10, 1, 0⟩, 1, 1, 1, []⟩
      [⟨2, ElementType.figure, ⟨5, 5, 10, 10, 1, 0⟩, 1, 1, 0, []⟩]) rfl
  refine ⟨(h.1 ⟨1, ElementType.figure, ⟨0, 0, 10, 10, 1, 0⟩, 1, 1, 1, []⟩
    (by simp)).1, ?_⟩
  have h2 := (h.1 ⟨2, ElementType.figure, ⟨5, 5, 10, 10, 1, 0⟩, 1, 1, 0, []⟩
    (by simp)).2.2.2.2
  exact le_trans (by norm_num) h2

theorem claim_C6_witness :
    (mergeElements ⟨3/10, 20, 1/2⟩
        [⟨1, ElementType.figure, ⟨0, 0, 10, 10, 1, 0⟩, 1, 1, 1, []⟩]).length ≤ 1 ∧
    ∃ mm ∈ mergeElements ⟨3/10, 20, 1/2⟩
        [⟨1, ElementType.figure, ⟨0, 0, 10, 10, 1, 0⟩, 1, 1, 1, []⟩],
      boxContains mm.bounding_box
        (⟨0, 0, 10, 10, 1, 0⟩ : BoundingBox) := by
  have h := claim_C6 ⟨3/10, 20, 1/2⟩
    [⟨1, ElementType.figure, ⟨0, 0, 10, 10, 1, 0⟩, 1, 1, 1, []⟩]
  exact ⟨h.1, h.2 ⟨1, ElementType.figure, ⟨0, 0, 10, 10, 1, 0⟩, 1, 1, 1, []⟩ (by simp)⟩

theorem claim_C9_witness :
    calculateDistance ⟨0, 0, 10, 10, 1, 0⟩ ⟨50, 5, 10, 10, 1, 0⟩ = 0 := by
  exact claim_C9.1 ⟨0, 0, 10, 10, 1, 0⟩ ⟨50, 5, 10, 10, 1, 0⟩
    (by norm_num [BoundingBox.y2]) (by norm_num [BoundingBox.y2])

theorem claim_C4_witness :
    captionScore ⟨7, ElementType.figure, ⟨0, 100, 50, 50, 1, 0⟩, 1, 1, 9/10, []⟩
        ⟨"Figure 1".data, ⟨0, 160, 30, 20, 1, 0⟩, 1, ElementType.figure, some 1⟩ ≤
      captionScore ⟨7, ElementType.figure, ⟨0, 100, 50, 50, 1, 0⟩, 1, 1, 9/10, []⟩
        ⟨"Figure 2".data, ⟨0, 70, 30, 20, 1, 0⟩, 1, ElementType.figure, some 2⟩ := by
  have h := claim_C4
  have hbest := h.2.2.2.2
  have h2 := h.2.1 ⟨7, ElementType.figure, ⟨0, 100, 50, 50, 1, 0⟩, 1, 1, 9/10, []⟩
    [⟨"Figure 2".data, ⟨0, 70, 30, 20, 1, 0⟩, 1, ElementType.figure, some 2⟩,
      ⟨"Figure 1".data, ⟨0, 160, 30, 20, 1, 0⟩, 1, ElementType.figure, some 1⟩]
    100
    ⟨"Figure 1".data, ⟨0, 160, 30, 20, 1, 0⟩, 1, ElementType.figure, some 1⟩ hbest
  refine h2.2 ⟨"Figure 2".data, ⟨0, 70, 30, 20, 1, 0⟩, 1, ElementType.figure, some 2⟩
    (by simp) ?_
  refine ⟨by norm_num [isRealCaption], rfl, rfl, by simp, ?_⟩
  norm_num [calculateDistance, BoundingBox.y2]

theorem claim_C5_witness :
    elementsOverlap ⟨2, ElementType.table, ⟨0, 5/2, 10, 10, 1, 0⟩, 1, 1, 6/10, []⟩
        ⟨1, ElementType.figure, ⟨0, 0, 10, 10, 1, 0⟩, 1, 1, 9/10, []⟩ (1/2) = true ∧
    (⟨2, ElementType.table, ⟨0, 5/2, 10, 10, 1, 0⟩, 1, 1, 6/10,
        []⟩ : Element).confidence_score ≤
      (⟨1, ElementType.figure, ⟨0, 0, 10, 10, 1, 0⟩, 1, 1, 9/10,
        []⟩ : Element).confidence_score := by
  have h := claim_C5
    [⟨1, ElementType.figure, ⟨0, 0, 10, 10, 1, 0⟩, 1, 1, 9/10, []⟩,
      ⟨2, ElementType.table, ⟨0, 5/2, 10, 10, 1, 0⟩, 1, 1, 6/10, []⟩] (1/2)
  have hmem : (⟨2, ElementType.table, ⟨0, 5/2, 10, 10, 1, 0⟩, 1, 1, 6/10, []⟩,
      ⟨1, ElementType.figure, ⟨0, 0, 10, 10, 1, 0⟩, 1, 1, 9/10, []⟩) ∈
      (handleOverlaps
        [⟨1, ElementType.figure, ⟨0, 0, 10, 10, 1, 0⟩, 1, 1, 9/10, []⟩,
          ⟨2, ElementType.table, ⟨0, 5/2, 10, 10, 1, 0⟩, 1, 1, 6/10, []⟩] (1/2)).2 := by
    rw [h.2.2.2.2]
    simp
  have h3 := h.2.1 _ hmem
  exact ⟨h3.1, h3.2.2⟩

theorem claim_C8_witness :
    parseNumber "Table B2".data ElementType.table =
      some ('B'.toUpper.toNat - 'A'.toNat + 1) := by
  exact claim_C8.2.1 ElementType.table "Table B2".data 'B' 7 (by decide) (by decide)
    (by decide)

theorem claim_C2_witness :
    (((assignSequenceNumbersAndFilenames
          [⟨31, ElementType.figure, ⟨0, 0, 10, 10, 1, 0⟩, 1, 1, 1, []⟩,
            ⟨32, ElementType.table, ⟨0, 30, 10, 10, 1, 0⟩, 1, 1, 1, []⟩]
          [PatToken.lit "doc_".data, PatToken.typePlaceholder, PatToken.lit "_".data,
            PatToken.counterPlaceholder, PatToken.lit ".pdf".data] []).filter
        (fun x => decide (x.element_type = ElementType.figure))).map
      (fun x => x.sequence_number)).Nodup ∧
    ((assignSequenceNumbersAndFilenames
        [⟨31, ElementType.figure, ⟨0, 0, 10, 10, 1, 0⟩, 1, 1, 1, []⟩,
          ⟨32, ElementType.table, ⟨0, 30, 10, 10, 1, 0⟩, 1, 1, 1, []⟩]
        [PatToken.lit "doc_".data, PatToken.typePlaceholder, PatToken.lit "_".data,
          PatToken.counterPlaceholder, PatToken.lit ".pdf".data] []).map
      (fun x => x.output_filename)).Nodup := by
  have h := claim_C2
    [⟨31, ElementType.figure, ⟨0, 0, 10, 10, 1, 0⟩, 1, 1, 1, []⟩,
      ⟨32, ElementType.table, ⟨0, 30, 10, 10, 1, 0⟩, 1, 1, 1, []⟩] []
    [PatToken.lit "doc_".data, PatToken.typePlaceholder, PatToken.lit "_".data,
      PatToken.counterPlaceholder, PatToken.lit ".pdf".data]
    (by decide) (by decide)
  exact ⟨h.1 ElementType.figure, h.2⟩

theorem claim_C10_witness :
    (assignSequenceNumbersAndFilenames
        [⟨11, ElementType.figure, ⟨0, 0, 10, 10, 1, 0⟩, 1, 1, 1, []⟩,
          ⟨12, ElementType.figure, ⟨0, 20, 10, 10, 1, 0⟩, 1, 1, 1, []⟩]
        [PatToken.typePlaceholder, PatToken.counterPlaceholder]
        [(11, ⟨[], ⟨0, 35, 10, 5, 1, 0⟩, 1, ElementType.figure, some 1⟩),
          (12, ⟨[], ⟨0, 35, 10, 5, 1, 0⟩, 1, ElementType.figure, some 1⟩)]).filter
      (fun x => decide (x.element_type = ElementType.figure ∧ x.sequence_number = 1)) =
    [createElementEmb ElementType.figure ⟨0, 20, 10, 10, 1, 0⟩ 1 1 1
      (renderPattern [PatToken.typePlaceholder, PatToken.counterPlaceholder]
        ElementType.figure 1)] := by
  exact (claim_C10
    [⟨11, ElementType.figure, ⟨0, 0, 10, 10, 1, 0⟩, 1, 1, 1, []⟩,
      ⟨12, ElementType.figure, ⟨0, 20, 10, 10, 1, 0⟩, 1, 1, 1, []⟩]
    [PatToken.typePlaceholder, PatToken.counterPlaceholder]
    [(11, ⟨[], ⟨0, 35, 10, 5, 1, 0⟩, 1, ElementType.figure, some 1⟩),
      (12, ⟨[], ⟨0, 35, 10, 5, 1, 0⟩, 1, ElementType.figure, some 1⟩)]
    ElementType.figure 1
    ⟨12, ElementType.figure, ⟨0, 20, 10, 10, 1, 0⟩, 1, 1, 1, []⟩ (by decide)).1

theorem claim_C1_witness :
    createMergedElementCore ⟨21, ElementType.figure, ⟨0, 0, 10, 10, 1, 0⟩, 1, 1, 1, []⟩
        [⟨22, ElementType.figure, ⟨0, 40, 10, 10, 1, 0⟩, 1, 1, 0, []⟩] ∈
      (mergeBySharedCaptions
        [⟨21, ElementType.figure, ⟨0, 0, 10, 10, 1, 0⟩, 1, 1, 1, []⟩,
          ⟨22, ElementType.figure, ⟨0, 40, 10, 10, 1, 0⟩, 1, 1, 0, []⟩]
        [(21, ⟨"Figure 3".data, ⟨0, 55, 10, 5, 1, 0⟩, 1, ElementType.figure, some 3⟩),
          (22, ⟨"Figure 3".data, ⟨0, 55, 10, 5, 1, 0⟩, 1, ElementType.figure,
            some 3⟩)]).1 ∧
    ((createMergedElementCore ⟨21, ElementType.figure, ⟨0, 0, 10, 10, 1, 0⟩, 1, 1, 1, []⟩
        [⟨22, ElementType.figure, ⟨0, 40, 10, 10, 1, 0⟩, 1, 1, 0, []⟩]).element_id,
      (⟨"Figure 3".data, ⟨0, 55, 10, 5, 1, 0⟩, 1, ElementType.figure,
        some 3⟩ : Caption)) ∈
      (mergeBySharedCaptions
        [⟨21, ElementType.figure, ⟨0, 0, 10, 10, 1, 0⟩, 1, 1, 1, []⟩,
          ⟨22, ElementType.figure, ⟨0, 40, 10, 10, 1, 0⟩, 1, 1, 0, []⟩]
        [(21, ⟨"Figure 3".data, ⟨0, 55, 10, 5, 1, 0⟩, 1, ElementType.figure, some 3⟩),
          (22, ⟨"Figure 3".data, ⟨0, 55, 10, 5, 1, 0⟩, 1, ElementType.figure,
            some 3⟩)]).2 := by
  have h := claim_C1
    [⟨21, ElementType.figure, ⟨0, 0, 10, 10, 1, 0⟩, 1, 1, 1, []⟩,
      ⟨22, ElementType.figure, ⟨0, 40, 10, 10, 1, 0⟩, 1, 1, 0, []⟩]
    [(21, ⟨"Figure 3".data, ⟨0, 55, 10, 5, 1, 0⟩, 1, ElementType.figure, some 3⟩),
      (22, ⟨"Figure 3".data, ⟨0, 55, 10, 5, 1, 0⟩, 1, ElementType.figure, some 3⟩)]
    1 ElementType.figure
    ⟨"Figure 3".data, ⟨0, 55, 10, 5, 1, 0⟩, 1, ElementType.figure, some 3⟩
    ⟨21, ElementType.figure, ⟨0, 0, 10, 10, 1, 0⟩, 1, 1, 1, []⟩
    [⟨22, ElementType.figure, ⟨0, 40, 10, 10, 1, 0⟩, 1, 1, 0, []⟩]
    (by decide) (by decide)
  exact ⟨h.1, h.2.1⟩

end DocScalpel
